import Mathlib

/-!
# bhfs: a ramfs-derived pseudo filesystem whose files keep a size but no content

Shallow embedding of `super.c`.

Conventions of the embedding

* `loff_t` and `ssize_t` values are `Int`; every C assignment that can leave the
  64-bit signed range is passed through `loff_wrap` (the kernel is built with
  wrapping signed arithmetic).  `size_t` byte counts are `Nat`.
* Kernel primitives that `super.c` calls but does not define (`iov_iter_zero`,
  `signal_pending`, `generic_write_checks`, `file_update_time`, `new_inode`,
  `get_next_ino`, `CURRENT_TIME`, `PAGE_SIZE`, `MAX_LFS_FILESIZE`) appear as
  explicit arguments that carry the outcome of the call.
* Pointers are indices into the lists of a heap (`fs.inodes`, `fs.dentries`).
* `inode_lock`/`inode_unlock` and `cond_resched` have no effect on the
  sequential state and are left out.
-/

namespace Bhfs

/-! ## Constants -/

def EFAULT : Int := 14
def ENOMEM : Int := 12
def ENOSPC : Int := 28
def ERESTARTSYS : Int := 512

def BHFS_MAGIC : Nat := 0x62686673

def S_IFMT : Nat := 0o170000
def S_IFREG : Nat := 0o100000
def S_IFDIR : Nat := 0o040000
def S_IFBLK : Nat := 0o060000
def S_ISGID : Nat := 0o002000

def S_ISREG (m : Nat) : Bool := m &&& S_IFMT == S_IFREG
def S_ISDIR (m : Nat) : Bool := m &&& S_IFMT == S_IFDIR
def S_ISBLK (m : Nat) : Bool := m &&& S_IFMT == S_IFBLK

/-- Largest value of a `loff_t` (64-bit signed). -/
def LOFF_MAX : Int := 9223372036854775807

/-- Smallest value of a `loff_t`. -/
def LOFF_MIN : Int := -9223372036854775808

/-- Result of storing the mathematical value `x` into a `loff_t` or `ssize_t`. -/
def loff_wrap (x : Int) : Int :=
  (x + 9223372036854775808) % 18446744073709551616 - 9223372036854775808

/-- Conversion of a `loff_t` to the `u64` argument of `iov_iter_truncate`. -/
def to_u64 (x : Int) : Nat := (x % 18446744073709551616).toNat

/-! ## Data model -/

inductive inode_ops where
  | empty_iops
  | bhfs_file_inode_operations
  | bhfs_dir_inode_operations
  deriving DecidableEq, Repr

inductive file_ops where
  | no_open_fops
  | bhfs_file_operations
  | simple_dir_operations
  deriving DecidableEq, Repr

structure inode where
  i_ino : Nat
  i_mode : Nat
  i_nlink : Nat
  i_size : Int
  i_atime : Int
  i_mtime : Int
  i_ctime : Int
  i_op : inode_ops
  i_fop : file_ops
  i_dirty : Bool
  deriving DecidableEq, Repr

/-- The open-file control block: only the file position is used by `super.c`. -/
structure kiocb where
  ki_pos : Int
  deriving DecidableEq, Repr

/-- An I/O vector iterator over user memory.
`count` is `iov_iter_count`; `consumed` is how far the cursor has moved;
`payload` is what the user memory holds when it is the source of a write;
`stored` lists, in order, the bytes stored into user memory through the
iterator when it is the destination of a read. -/
structure iov_iter where
  count : Nat
  consumed : Nat
  payload : List Nat
  stored : List Nat
  deriving DecidableEq, Repr

/-! ## Kernel primitives on iterators -/

def iov_iter_count (i : iov_iter) : Nat := i.count

/-- Kernel `iov_iter_truncate`: the count never grows. -/
def iov_iter_truncate (i : iov_iter) (count : Nat) : iov_iter :=
  if i.count > count then { i with count := count } else i

/-- Kernel `iov_iter_advance`: skip `size` bytes, at most what is left. -/
def iov_iter_advance (i : iov_iter) (size : Nat) : iov_iter :=
  let n := min size i.count
  { i with count := i.count - n, consumed := i.consumed + n }

/-- Kernel `iov_iter_zero (bytes, i)`: store zero bytes through the iterator.
`accept` is how many bytes the user memory under the cursor takes before it
faults.  Returns the number of bytes stored and the advanced iterator. -/
def iov_iter_zero (bytes : Nat) (i : iov_iter) (accept : Nat) : Nat × iov_iter :=
  let n := min (min bytes i.count) accept
  (n, { i with count := i.count - n, consumed := i.consumed + n,
               stored := i.stored ++ List.replicate n 0 })

/-! ## bhfs_read_iter -/

/-- What the environment does during one iteration of the read loop. -/
structure chunk_env where
  accept : Nat
  signal : Bool
  deriving DecidableEq, Repr

/-- Local variables of `bhfs_read_iter` that live across loop iterations. -/
structure read_state where
  iter : iov_iter
  read_cnt : Nat
  ret : Int
  deriving DecidableEq, Repr

/-- The `while (iov_iter_count(iter))` loop of `bhfs_read_iter`.
`k` numbers the iteration, `env k` is what happens in it.  The first argument
bounds the number of iterations; `none` means the bound was reached. -/
def read_loop (PAGE_SIZE : Nat) (env : Nat → chunk_env) :
    Nat → Nat → read_state → Option read_state
  | 0, _, _ => none
  | fuel + 1, k, s =>
    if iov_iter_count s.iter = 0 then some s
    else
      let chunk := if PAGE_SIZE < iov_iter_count s.iter then PAGE_SIZE
                   else iov_iter_count s.iter
      let r := iov_iter_zero chunk s.iter (env k).accept
      if r.1 = 0 ∧ iov_iter_count r.2 ≠ 0 then
        some { iter := r.2, read_cnt := s.read_cnt, ret := -EFAULT }
      else if (env k).signal then
        some { iter := r.2, read_cnt := s.read_cnt + r.1, ret := -ERESTARTSYS }
      else
        read_loop PAGE_SIZE env fuel (k + 1)
          { iter := r.2, read_cnt := s.read_cnt + r.1, ret := s.ret }

/-- Everything `bhfs_read_iter` leaves behind. -/
structure read_result where
  ret : Int
  iocb : kiocb
  iter : iov_iter
  inode : inode
  deriving DecidableEq, Repr

/-- The function `bhfs_read_iter`.  `atime` is the access time `file_accessed`
leaves in the inode.  The loop is given one more step than the truncated
count, which `bhfs_read_iter_returns` shows to be enough. -/
def bhfs_read_iter (PAGE_SIZE : Nat) (env : Nat → chunk_env) (atime : Int)
    (iocb : kiocb) (iter : iov_iter) (ino : inode) : Option read_result :=
  if iov_iter_count iter = 0 then
    some { ret := 0, iocb := iocb, iter := iter, inode := ino }
  else
    let offset := iocb.ki_pos
    let i_size := ino.i_size
    if i_size ≤ offset then
      some { ret := 0, iocb := iocb, iter := iter, inode := ino }
    else
      let iter1 := iov_iter_truncate iter (to_u64 (loff_wrap (i_size - offset)))
      match read_loop PAGE_SIZE env (iov_iter_count iter1 + 1) 0
              { iter := iter1, read_cnt := 0, ret := 0 } with
      | none => none
      | some s =>
        if 0 < s.read_cnt then
          some { ret := loff_wrap s.read_cnt,
                 iocb := { iocb with ki_pos := loff_wrap (iocb.ki_pos + s.read_cnt) },
                 iter := s.iter,
                 inode := { ino with i_atime := atime } }
        else
          some { ret := s.ret, iocb := iocb, iter := s.iter, inode := ino }

/-! ## bhfs_write_iter -/

/-- Outcome of one call of the kernel helpers `bhfs_write_iter` relies on.
`chk_ret`, `chk_pos` and `chk_count` are what `generic_write_checks (iocb, from)`
returns, the position it leaves in `iocb->ki_pos` (append mode moves it) and
the count it leaves in `from` (it may truncate).  `err`, `mtime`, `ctime` are
what `file_update_time` returns and the time stamps it leaves in the inode. -/
structure write_env where
  chk_ret : Int
  chk_pos : Int
  chk_count : Nat
  err : Int
  mtime : Int
  ctime : Int
  deriving DecidableEq, Repr

/-- Everything `bhfs_write_iter` leaves behind. -/
structure write_result where
  ret : Int
  iocb : kiocb
  iter : iov_iter
  inode : inode
  deriving DecidableEq, Repr

/-- The function `bhfs_write_iter`. -/
def bhfs_write_iter (env : write_env) (iocb : kiocb) (src : iov_iter) (ino : inode) :
    write_result :=
  -- ret = generic_write_checks(iocb, from)
  let iocb1 : kiocb := { iocb with ki_pos := env.chk_pos }
  let from1 : iov_iter := { src with count := env.chk_count }
  let ret := env.chk_ret
  if 0 < ret then
    -- err = file_update_time(file)
    let ino1 : inode := { ino with i_mtime := env.mtime, i_ctime := env.ctime }
    if env.err = 0 then
      let iocb2 : kiocb := { iocb1 with ki_pos := loff_wrap (iocb1.ki_pos + ret) }
      let ino2 : inode :=
        if ino1.i_size < iocb2.ki_pos ∧ ¬ S_ISBLK ino1.i_mode then
          { ino1 with i_size := iocb2.ki_pos, i_dirty := true }
        else ino1
      { ret := ret, iocb := iocb2, iter := iov_iter_advance from1 ret.toNat, inode := ino2 }
    else
      { ret := env.err, iocb := iocb1, iter := from1, inode := ino1 }
  else
    { ret := ret, iocb := iocb1, iter := from1, inode := ino }

/-- One write request: the handle position, the source buffer and what the
kernel helpers answer. -/
structure write_req where
  pos : Int
  src : iov_iter
  env : write_env
  deriving DecidableEq, Repr

/-- The inode after a sequence of write requests, oldest first. -/
def run_writes (ino : inode) : List write_req → inode
  | [] => ino
  | w :: ws => run_writes (bhfs_write_iter w.env ⟨w.pos⟩ w.src ino).inode ws

/-- The largest end offset `pos + count` among the requests, or 0 if none. -/
def max_end : List write_req → Int
  | [] => 0
  | w :: ws => max (w.pos + w.src.count) (max_end ws)

/-! ## Inodes, directory entries and the super block -/

/-- A directory entry.  `d_parent` is the inode of the directory that holds
the entry (`d_parent->d_inode` in C), `none` for the root entry; `d_inode` is
the inode bound to the entry, `none` while the entry is negative. -/
structure dentry where
  d_parent : Option Nat
  d_inode : Option Nat
  d_count : Nat
  deriving DecidableEq, Repr

structure super_block where
  s_maxbytes : Int
  s_blocksize : Nat
  s_blocksize_bits : Nat
  s_magic : Nat
  s_time_gran : Nat
  s_root : Option Nat
  deriving DecidableEq, Repr

/-- The objects of one mount.  An inode or dentry pointer is an index into
the respective list. -/
structure fs where
  sb : super_block
  inodes : List inode
  dentries : List dentry
  deriving DecidableEq, Repr

/-- Update of the object a pointer refers to. -/
def modify_at {α : Type} (f : α → α) : List α → Nat → List α
  | [], _ => []
  | x :: xs, 0 => f x :: xs
  | x :: xs, n + 1 => x :: modify_at f xs n

/-- Outcome of the kernel calls made by `bhfs_get_inode`: `new_inode (sb)`
(`none` is the NULL pointer), `get_next_ino ()` and `CURRENT_TIME`. -/
structure alloc_env where
  new_inode : Option inode
  ino : Nat
  now : Int
  deriving DecidableEq, Repr

/-- Kernel `inode_init_owner`, as far as `i_mode` goes: a directory made in a
set-group-id directory inherits the bit. -/
def inode_init_owner (dir : Option inode) (mode : Nat) : Nat :=
  match dir with
  | some d => if d.i_mode &&& S_ISGID ≠ 0 ∧ S_ISDIR mode then mode ||| S_ISGID else mode
  | none => mode

/-- Kernel `inc_nlink`.  The link count is a 32-bit `unsigned int`: the
increment wraps from 4294967295 to 0. -/
def inc_nlink (i : inode) : inode := { i with i_nlink := (i.i_nlink + 1) % 4294967296 }

/-- The function `bhfs_get_inode`.  The outer `none` is `BUG_ON(1)`; the inner
option is the returned pointer, `none` for NULL. -/
def bhfs_get_inode (env : alloc_env) (s : fs) (dir : Option Nat) (mode : Nat) (_dev : Nat) :
    Option (Option Nat × fs) :=
  match env.new_inode with
  | none => some (none, s)
  | some i0 =>
    let i1 : inode :=
      { i0 with i_ino := env.ino,
                i_mode := inode_init_owner (dir.bind (fun p => s.inodes[p]?)) mode,
                i_atime := env.now, i_mtime := env.now, i_ctime := env.now }
    if mode &&& S_IFMT = S_IFREG then
      some (some s.inodes.length,
        { s with inodes := s.inodes ++
            [{ i1 with i_op := .bhfs_file_inode_operations, i_fop := .bhfs_file_operations }] })
    else if mode &&& S_IFMT = S_IFDIR then
      some (some s.inodes.length,
        { s with inodes := s.inodes ++
            [inc_nlink { i1 with i_op := .bhfs_dir_inode_operations,
                                 i_fop := .simple_dir_operations }] })
    else none

/-- Kernel `d_instantiate`: bind the inode to the entry. -/
def d_instantiate (s : fs) (de : Nat) (ino : Nat) : fs :=
  { s with dentries := modify_at (fun d => { d with d_inode := some ino }) s.dentries de }

/-- Kernel `dget`: take one more reference on the entry. -/
def dget (s : fs) (de : Nat) : fs :=
  { s with dentries := modify_at (fun d => { d with d_count := d.d_count + 1 }) s.dentries de }

/-- The function `bhfs_mknod`.  `now` is `CURRENT_TIME` as read for the
directory; `none` is `BUG_ON(1)` inside `bhfs_get_inode`. -/
def bhfs_mknod (env : alloc_env) (now : Int) (s : fs) (dir : Nat) (de : Nat) (mode : Nat)
    (dev : Nat) : Option (Int × fs) :=
  match bhfs_get_inode env s (some dir) mode dev with
  | none => none
  | some (none, s1) => some (-ENOSPC, s1)
  | some (some ino, s1) =>
    let s2 := dget (d_instantiate s1 de ino) de
    let inodes2 := modify_at (fun d => { d with i_mtime := now, i_ctime := now }) s2.inodes dir
    some (0, { s2 with inodes := inodes2 })

/-- The function `bhfs_mkdir`. -/
def bhfs_mkdir (env : alloc_env) (now : Int) (s : fs) (dir : Nat) (de : Nat) (mode : Nat) :
    Option (Int × fs) :=
  match bhfs_mknod env now s dir de (mode ||| S_IFDIR) 0 with
  | none => none
  | some (retval, s1) =>
    if retval = 0 then some (retval, { s1 with inodes := modify_at inc_nlink s1.inodes dir })
    else some (retval, s1)

/-- The function `bhfs_create`. -/
def bhfs_create (env : alloc_env) (now : Int) (s : fs) (dir : Nat) (de : Nat) (mode : Nat)
    (_excl : Bool) : Option (Int × fs) :=
  bhfs_mknod env now s dir de (mode ||| S_IFREG) 0

/-- Kernel `d_make_root`: allocate the root entry and bind the inode to it;
if the entry cannot be allocated (`ok` false) the inode is put back. -/
def d_make_root (ok : Bool) (s : fs) (root_inode : Option Nat) : Option Nat × fs :=
  match root_inode with
  | none => (none, s)
  | some ino =>
    if ok then
      (some s.dentries.length,
        { s with dentries := s.dentries ++ [{ d_parent := none, d_inode := some ino,
                                              d_count := 1 }] })
    else (none, { s with inodes := s.inodes.eraseIdx ino })

/-- The function `bhfs_fill_super`.  `MAX_LFS_FILESIZE`, `PAGE_SIZE` and
`PAGE_SHIFT` are the platform constants of the kernel headers. -/
def bhfs_fill_super (MAX_LFS_FILESIZE : Int) (PAGE_SIZE PAGE_SHIFT : Nat) (env : alloc_env)
    (dentry_ok : Bool) (s : fs) : Option (Int × fs) :=
  let s1 : fs :=
    { s with sb := { s.sb with s_maxbytes := MAX_LFS_FILESIZE, s_blocksize := PAGE_SIZE,
                               s_blocksize_bits := PAGE_SHIFT, s_magic := BHFS_MAGIC,
                               s_time_gran := 1 } }
  match bhfs_get_inode env s1 none S_IFDIR 0 with
  | none => none
  | some (inode, s2) =>
    let r := d_make_root dentry_ok s2 inode
    let s3 : fs := { r.2 with sb := { r.2.sb with s_root := r.1 } }
    if r.1 = none then some (-ENOMEM, s3) else some (0, s3)

/-! ## The mounted filesystem as a transition system -/

/-- The state `mount_nodev` hands to `bhfs_fill_super`: a blank super block
and no objects. -/
def fs_blank : fs :=
  { sb := { s_maxbytes := 0, s_blocksize := 0, s_blocksize_bits := 0, s_magic := 0,
            s_time_gran := 0, s_root := none },
    inodes := [], dentries := [] }

/-- Kernel `d_alloc` as done by the VFS lookup before `create` or `mkdir`: a
negative entry under the directory `dir`. -/
def d_alloc (s : fs) (dir : Nat) : fs :=
  { s with dentries := s.dentries ++ [{ d_parent := some dir, d_inode := none, d_count := 1 }] }

/-- The calls the VFS makes into the filesystem, with what the kernel helpers
answer during the call. -/
inductive vfs_op where
  | mkdir (dir : Nat) (mode : Nat) (env : alloc_env) (now : Int)
  | create (dir : Nat) (mode : Nat) (excl : Bool) (env : alloc_env) (now : Int)
  | read (file : Nat) (PAGE_SIZE : Nat) (env : Nat → chunk_env) (atime : Int) (pos : Int)
      (dst : iov_iter)
  | write (file : Nat) (pos : Int) (src : iov_iter) (env : write_env)

/-- Dispatch of a VFS call through the operation tables `super.c` installs:
`mkdir` and `create` exist only in `bhfs_dir_inode_operations`, `read_iter`
and `write_iter` only in `bhfs_file_operations`.  `none`: the call is not
dispatched, or the kernel stopped in `BUG_ON`. -/
def apply_op (s : fs) : vfs_op → Option fs
  | .mkdir dir mode env now =>
    match s.inodes[dir]? with
    | some d =>
      if d.i_op = .bhfs_dir_inode_operations then
        (bhfs_mkdir env now (d_alloc s dir) dir s.dentries.length mode).map (fun r => r.2)
      else none
    | none => none
  | .create dir mode excl env now =>
    match s.inodes[dir]? with
    | some d =>
      if d.i_op = .bhfs_dir_inode_operations then
        (bhfs_create env now (d_alloc s dir) dir s.dentries.length mode excl).map (fun r => r.2)
      else none
    | none => none
  | .read file PAGE_SIZE env atime pos dst =>
    match s.inodes[file]? with
    | some i =>
      if i.i_fop = .bhfs_file_operations then
        (bhfs_read_iter PAGE_SIZE env atime ⟨pos⟩ dst i).map
          (fun r => { s with inodes := modify_at (fun _ => r.inode) s.inodes file })
      else none
    | none => none
  | .write file pos src env =>
    match s.inodes[file]? with
    | some i =>
      if i.i_fop = .bhfs_file_operations then
        let r := bhfs_write_iter env ⟨pos⟩ src i
        some { s with inodes := modify_at (fun _ => r.inode) s.inodes file }
      else none
    | none => none

/-- What the kernel guarantees about `new_inode`: a fresh inode has link
count 1 and size 0. -/
def fresh_inode (env : alloc_env) : Prop :=
  match env.new_inode with
  | none => True
  | some i => i.i_nlink = 1 ∧ i.i_size = 0

/-- What is assumed of the kernel helpers during a call: `new_inode` hands
out fresh inodes, and `generic_write_checks` accepts a length only if the end
offset (the position it leaves, a `loff_t`, plus the accepted length) does
not exceed `s_maxbytes`. -/
def op_contract (s : fs) : vfs_op → Prop
  | .mkdir _ _ env _ => fresh_inode env
  | .create _ _ _ env _ => fresh_inode env
  | .read _ _ _ _ _ _ => True
  | .write _ _ _ env =>
    0 < env.chk_ret → LOFF_MIN ≤ env.chk_pos ∧ env.chk_pos + env.chk_ret ≤ s.sb.s_maxbytes

/-- States of a mounted filesystem: what a successful `bhfs_fill_super`
builds, then any number of dispatched calls. -/
inductive Reachable : fs → Prop where
  | mount (M : Int) (P sh : Nat) (env : alloc_env) (ok : Bool) (s : fs) :
      0 ≤ M → M ≤ LOFF_MAX → fresh_inode env →
      bhfs_fill_super M P sh env ok fs_blank = some (0, s) → Reachable s
  | step (s : fs) (op : vfs_op) (t : fs) :
      Reachable s → op_contract s op → apply_op s op = some t → Reachable t

/-- Whether the entry `d` lies in the directory `p` and is bound to a
directory inode. -/
def is_subdir_of (inodes : List inode) (p : Nat) (d : dentry) : Bool :=
  d.d_parent == some p &&
    (match d.d_inode with
     | some c => (match inodes[c]? with
                  | some i => S_ISDIR i.i_mode
                  | none => false)
     | none => false)

/-- Number of child subdirectories of the directory `p`: the entries of `p`
that are bound to a directory. -/
def nr_subdirs (s : fs) (p : Nat) : Nat :=
  s.dentries.countP (is_subdir_of s.inodes p)

/-- The link counts follow the directory convention, as far as the 32-bit
field can hold them. -/
def links_ok (s : fs) : Prop :=
  ∀ (p : Nat) (i : inode), s.inodes[p]? = some i →
    (S_ISDIR i.i_mode = true → i.i_nlink = (2 + nr_subdirs s p) % 4294967296) ∧
    (S_ISREG i.i_mode = true → i.i_nlink = 1)

/-- Entries point to inodes of the heap. -/
def ptrs_ok (s : fs) : Prop :=
  ∀ d ∈ s.dentries, (∀ c, d.d_inode = some c → c < s.inodes.length) ∧
    (∀ p, d.d_parent = some p → p < s.inodes.length)

/-- Only directories carry the directory operations. -/
def ops_ok (s : fs) : Prop :=
  ∀ (p : Nat) (i : inode), s.inodes[p]? = some i →
    i.i_op = .bhfs_dir_inode_operations → S_ISDIR i.i_mode = true

/-- Sizes lie between 0 and `s_maxbytes`, which is a file offset. -/
def sizes_ok (s : fs) : Prop :=
  0 ≤ s.sb.s_maxbytes ∧ s.sb.s_maxbytes ≤ LOFF_MAX ∧
  ∀ (p : Nat) (i : inode), s.inodes[p]? = some i → 0 ≤ i.i_size ∧ i.i_size ≤ s.sb.s_maxbytes

/-- The invariant of a mounted filesystem. -/
def fs_inv (s : fs) : Prop := links_ok s ∧ ptrs_ok s ∧ ops_ok s ∧ sizes_ok s

/-- What `bhfs_mknod` does to the directory inode. -/
def touch_dir (now : Int) (d : inode) : inode := { d with i_mtime := now, i_ctime := now }

/-- The entry `bhfs_mknod` leaves for the VFS: bound to `ino` and pinned. -/
def bind_entry (ino : Nat) (d : dentry) : dentry :=
  { d with d_inode := some ino, d_count := d.d_count + 1 }

/-- How the inode `c` that `bhfs_get_inode` returns relates to the fresh
inode `i0` it got from the kernel, for the requested mode `m`. -/
def built_from (env : alloc_env) (m : Nat) (i0 c : inode) : Prop :=
  c.i_mode &&& S_IFMT = m &&& S_IFMT ∧ c.i_size = i0.i_size ∧
  c.i_atime = env.now ∧ c.i_mtime = env.now ∧ c.i_ctime = env.now ∧
  ((m &&& S_IFMT = S_IFREG ∧ c.i_nlink = i0.i_nlink ∧
      c.i_op = .bhfs_file_inode_operations ∧ c.i_fop = .bhfs_file_operations) ∨
   (m &&& S_IFMT = S_IFDIR ∧ c.i_nlink = (i0.i_nlink + 1) % 4294967296 ∧
      c.i_op = .bhfs_dir_inode_operations ∧ c.i_fop = .simple_dir_operations))

/-- A write request that succeeds in full: the position is a file offset, the
end offset is representable, `generic_write_checks` passes (returns a
positive count), accepts the whole requested length and leaves position and
count as they were, and `file_update_time` returns 0. -/
def accepted (w : write_req) : Prop :=
  0 ≤ w.pos ∧ w.pos + w.src.count ≤ LOFF_MAX ∧
  0 < w.env.chk_ret ∧ w.env.chk_ret = w.src.count ∧
  w.env.chk_pos = w.pos ∧ w.env.chk_count = w.src.count ∧ w.env.err = 0

/-- Number of bytes stored into the destination between two states of its
iterator. -/
def produced (before after : iov_iter) : Nat :=
  after.stored.length - before.stored.length

instance (w : write_req) : Decidable (accepted w) := by
  unfold accepted
  infer_instance

instance (env : alloc_env) : Decidable (fresh_inode env) :=
  match h : env.new_inode with
  | none => isTrue (by simp [fresh_inode, h])
  | some i =>
    if hi : i.i_nlink = 1 ∧ i.i_size = 0 then isTrue (by simpa [fresh_inode, h] using hi)
    else isFalse (by simpa [fresh_inode, h] using hi)

instance (s : fs) (op : vfs_op) : Decidable (op_contract s op) := by
  cases op <;> (unfold op_contract; infer_instance)

/-! ## Sample objects -/

/-- A regular file as `bhfs_create` leaves it: mode 0644, size 0, one link. -/
def file0 : inode :=
  { i_ino := 2, i_mode := 0o100644, i_nlink := 1, i_size := 0, i_atime := 0, i_mtime := 0,
    i_ctime := 0, i_op := .bhfs_file_inode_operations, i_fop := .bhfs_file_operations,
    i_dirty := false }

/-- A source buffer holding the bytes `bs`. -/
def src_of (bs : List Nat) : iov_iter :=
  { count := bs.length, consumed := 0, payload := bs, stored := [] }

/-- A destination buffer for `n` bytes. -/
def dst_of (n : Nat) : iov_iter :=
  { count := n, consumed := 0, payload := [], stored := [] }

/-- A write of the bytes `bs` at `pos` that the kernel helpers accept in full
at time `t`. -/
def write_ok (pos : Int) (bs : List Nat) (t : Int) : write_req :=
  { pos := pos, src := src_of bs,
    env := { chk_ret := bs.length, chk_pos := pos, chk_count := bs.length, err := 0,
             mtime := t, ctime := t } }

/-- Five bytes at offset 100, then ten bytes at offset 0. -/
def two_writes : List write_req :=
  [write_ok 100 [1, 2, 3, 4, 5] 1, write_ok 0 [9, 9, 9, 9, 9, 9, 9, 9, 9, 9] 2]

/-- A destination that takes whatever it is given, no signal pending. -/
def quiet (_k : Nat) : chunk_env := { accept := 4096, signal := false }

/-- A destination that takes whatever it is given; a signal is pending from
iteration `k0` on. -/
def signal_from (k0 k : Nat) : chunk_env := { accept := 4096, signal := decide (k0 ≤ k) }

/-- A destination whose memory is invalid from the first byte. -/
def faulty (_k : Nat) : chunk_env := { accept := 0, signal := false }

/-- The inode the kernel hands out: link count 1, size 0, nothing bound. -/
def blank : inode :=
  { i_ino := 0, i_mode := 0, i_nlink := 1, i_size := 0, i_atime := 0, i_mtime := 0,
    i_ctime := 0, i_op := .empty_iops, i_fop := .no_open_fops, i_dirty := false }

/-- An allocation that succeeds, with inode number `n` at time `t`. -/
def env_at (n : Nat) (t : Int) : alloc_env := { new_inode := some blank, ino := n, now := t }

/-- An allocation that fails. -/
def env_fail (n : Nat) (t : Int) : alloc_env := { new_inode := none, ino := n, now := t }

def dir_inode (ino mode nlink : Nat) (a m : Int) : inode :=
  { i_ino := ino, i_mode := mode, i_nlink := nlink, i_size := 0, i_atime := a, i_mtime := m,
    i_ctime := m, i_op := .bhfs_dir_inode_operations, i_fop := .simple_dir_operations,
    i_dirty := false }

def reg_inode (ino mode : Nat) (size a m : Int) (dirty : Bool) : inode :=
  { i_ino := ino, i_mode := mode, i_nlink := 1, i_size := size, i_atime := a, i_mtime := m,
    i_ctime := m, i_op := .bhfs_file_inode_operations, i_fop := .bhfs_file_operations,
    i_dirty := dirty }

def sb_mounted : super_block :=
  { s_maxbytes := LOFF_MAX, s_blocksize := 4096, s_blocksize_bits := 12, s_magic := BHFS_MAGIC,
    s_time_gran := 1, s_root := some 0 }

/-- Just mounted: the root directory. -/
def fs_root : fs :=
  { sb := sb_mounted,
    inodes := [dir_inode 1 0o040000 2 10 10],
    dentries := [⟨none, some 0, 1⟩] }

/-- After mkdir of `d` in the root. -/
def fs_d : fs :=
  { sb := sb_mounted,
    inodes := [dir_inode 1 0o040000 3 10 21, dir_inode 2 0o040755 2 20 20],
    dentries := [⟨none, some 0, 1⟩, ⟨some 0, some 1, 2⟩] }

/-- After create of `d/f` with mode 0644. -/
def fs_d_f : fs :=
  { sb := sb_mounted,
    inodes := [dir_inode 1 0o040000 3 10 21, dir_inode 2 0o040755 2 20 31,
               reg_inode 3 0o100644 0 30 30 false],
    dentries := [⟨none, some 0, 1⟩, ⟨some 0, some 1, 2⟩, ⟨some 1, some 2, 2⟩] }

/-- After a write of five bytes at offset 100 to `d/f`. -/
def fs_written : fs :=
  { sb := sb_mounted,
    inodes := [dir_inode 1 0o040000 3 10 21, dir_inode 2 0o040755 2 20 31,
               reg_inode 3 0o100644 105 30 40 true],
    dentries := [⟨none, some 0, 1⟩, ⟨some 0, some 1, 2⟩, ⟨some 1, some 2, 2⟩] }

/-- The root directory after `n` calls of mkdir in it (mode 0, inode number
0, all at time 0): the 32-bit link count has been incremented `n` times. -/
def many_root (n : Nat) : inode := dir_inode 0 0o040000 ((2 + n) % 4294967296) 0 0

/-- The entry of the root for its subdirectory number `k`, whose inode is at
index `k + 1` of the heap. -/
def sub_entry (k : Nat) : dentry := { d_parent := some 0, d_inode := some (k + 1), d_count := 2 }

/-- The filesystem after a mount and `n` calls of mkdir in the root. -/
def many_dirs (n : Nat) : fs :=
  { sb := sb_mounted,
    inodes := many_root n :: List.replicate n (dir_inode 0 0o040000 2 0 0),
    dentries := ⟨none, some 0, 1⟩ :: (List.range n).map sub_entry }

/-- Bytes stored by the first `k` iterations of the read loop when none of
them leaves the loop, for a transfer of `m` bytes: iteration `j` asks for
`min PAGE_SIZE (bytes left)` and stores what the destination accepts of it. -/
def stored_after (PAGE_SIZE : Nat) (env : Nat → chunk_env) (m : Nat) : Nat → Nat
  | 0 => 0
  | k + 1 =>
    stored_after PAGE_SIZE env m k +
      min (min PAGE_SIZE (m - stored_after PAGE_SIZE env m k)) (env k).accept

/-- The transfer length `bhfs_read_iter` is after: the request clamped to
what lies between the position and the end of the file. -/
def clamped (iocb : kiocb) (iter : iov_iter) (ino : inode) : Nat :=
  min iter.count (ino.i_size - iocb.ki_pos).toNat

/-- The iterator after `d` zero bytes went through it. -/
def iter_after (i : iov_iter) (d : Nat) : iov_iter :=
  { i with count := i.count - d, consumed := i.consumed + d,
           stored := i.stored ++ List.replicate d 0 }

/-! ## Arithmetic of file offsets -/

theorem loff_wrap_id (x : Int) (h1 : -9223372036854775808 ≤ x) (h2 : x ≤ LOFF_MAX) :
    loff_wrap x = x := by
  unfold loff_wrap
  unfold LOFF_MAX at h2
  omega

theorem loff_wrap_le (x : Int) : loff_wrap x ≤ LOFF_MAX := by
  unfold loff_wrap LOFF_MAX
  omega

theorem to_u64_id (x : Int) (h1 : 0 ≤ x) (h2 : x ≤ LOFF_MAX) : to_u64 x = x.toNat := by
  unfold to_u64
  unfold LOFF_MAX at h2
  congr 1
  omega

/-! ## The read loop -/

theorem iter_after_zero (i : iov_iter) : iter_after i 0 = i := by
  cases i
  simp [iter_after]

theorem iter_after_add (i : iov_iter) (a b : Nat) :
    iter_after (iter_after i a) b = iter_after i (a + b) := by
  simp [iter_after, Nat.sub_sub, Nat.add_assoc, List.append_assoc]

theorem iov_iter_zero_eq (bytes : Nat) (i : iov_iter) (accept : Nat) :
    iov_iter_zero bytes i accept =
      (min (min bytes i.count) accept, iter_after i (min (min bytes i.count) accept)) := by
  simp [iov_iter_zero, iter_after]

/-- With more steps than bytes left the loop ends, having stored some `d` zero
bytes; it leaves `ret` alone, or sets `-EFAULT`, or sets `-ERESTARTSYS` after a
chunk that stored at least one byte. -/
theorem read_loop_spec (P : Nat) (env : Nat → chunk_env) :
    ∀ (fuel k : Nat) (s : read_state), s.iter.count < fuel →
      ∃ d ret, read_loop P env fuel k s =
          some { iter := iter_after s.iter d, read_cnt := s.read_cnt + d, ret := ret } ∧
        d ≤ s.iter.count ∧
        (ret = s.ret ∨ ret = -EFAULT ∨ (ret = -ERESTARTSYS ∧ 0 < d)) := by
  intro fuel
  induction fuel with
  | zero => intro k s h; omega
  | succ fuel ih =>
    intro k s h
    rw [read_loop]
    by_cases hc : iov_iter_count s.iter = 0
    · refine ⟨0, s.ret, ?_, Nat.zero_le _, Or.inl rfl⟩
      simp [hc, iter_after_zero]
    · have hc1 : s.iter.count ≠ 0 := hc
      rw [if_neg hc]
      simp only [iov_iter_zero_eq, iov_iter_count]
      generalize hn : min (min (if P < s.iter.count then P else s.iter.count) s.iter.count)
        (env k).accept = n
      have hle : n ≤ s.iter.count := by
        rw [← hn]
        exact le_trans (Nat.min_le_left _ _) (Nat.min_le_right _ _)
      by_cases hz : n = 0
      · refine ⟨0, -EFAULT, ?_, Nat.zero_le _, Or.inr (Or.inl rfl)⟩
        subst hz
        simp [iter_after, hc1]
      · have hcnt : ¬ (n = 0 ∧ (iter_after s.iter n).count ≠ 0) := fun h0 => hz h0.1
        simp only [hcnt, if_false]
        by_cases hs : (env k).signal = true
        · refine ⟨n, -ERESTARTSYS, ?_, hle, Or.inr (Or.inr ⟨rfl, Nat.pos_of_ne_zero hz⟩)⟩
          simp [hs]
        · simp only [hs, Bool.false_eq_true, if_false]
          have hlt : (iter_after s.iter n).count < fuel := by
            simp only [iter_after]
            omega
          obtain ⟨d, ret, he, hd, hr⟩ :=
            ih (k + 1) { iter := iter_after s.iter n, read_cnt := s.read_cnt + n, ret := s.ret } hlt
          refine ⟨n + d, ret, ?_, ?_, ?_⟩
          · rw [he, iter_after_add, Nat.add_assoc]
          · simp only [iter_after] at hd
            omega
          · rcases hr with hr | hr | hr
            · exact Or.inl hr
            · exact Or.inr (Or.inl hr)
            · exact Or.inr (Or.inr ⟨hr.1, by omega⟩)

/-- When no signal is pending and the destination takes every chunk in full,
the loop stores all the bytes left and leaves `ret` alone. -/
theorem read_loop_full (P : Nat) (env : Nat → chunk_env) (hP : 0 < P) :
    ∀ (fuel k : Nat) (s : read_state), s.iter.count < fuel →
      (∀ j, (env (k + j)).signal = false ∧
        min P (s.iter.count - j * P) ≤ (env (k + j)).accept) →
      read_loop P env fuel k s =
        some { iter := iter_after s.iter s.iter.count,
               read_cnt := s.read_cnt + s.iter.count, ret := s.ret } := by
  intro fuel
  induction fuel with
  | zero => intro k s h; omega
  | succ fuel ih =>
    intro k s h henv
    rw [read_loop]
    by_cases hc : iov_iter_count s.iter = 0
    · have hc1 : s.iter.count = 0 := hc
      simp [hc, hc1, iter_after_zero]
    · have hc1 : s.iter.count ≠ 0 := hc
      have h0 := henv 0
      simp only [Nat.zero_mul, Nat.sub_zero, Nat.add_zero] at h0
      rw [if_neg hc]
      simp only [iov_iter_zero_eq, iov_iter_count]
      have hn : min (min (if P < s.iter.count then P else s.iter.count) s.iter.count)
          (env k).accept = min P s.iter.count := by
        have := h0.2
        split <;> omega
      rw [hn]
      have hz : min P s.iter.count ≠ 0 := by omega
      have hcnt : ¬ (min P s.iter.count = 0 ∧
          (iter_after s.iter (min P s.iter.count)).count ≠ 0) := fun h1 => hz h1.1
      simp only [hcnt, if_false, h0.1, Bool.false_eq_true]
      have hlt : (iter_after s.iter (min P s.iter.count)).count < fuel := by
        simp only [iter_after]
        omega
      have hcount : (iter_after s.iter (min P s.iter.count)).count =
          s.iter.count - min P s.iter.count := rfl
      rw [ih (k + 1) _ hlt]
      · simp only [iter_after_add, hcount]
        have e : min P s.iter.count + (s.iter.count - min P s.iter.count) = s.iter.count := by
          omega
        rw [e, Nat.add_assoc, e]
      · intro j
        have hj := henv (j + 1)
        rw [show k + 1 + j = k + (j + 1) by omega]
        refine ⟨hj.1, ?_⟩
        have hm : (j + 1) * P = j * P + P := Nat.succ_mul j P
        rw [hm] at hj
        simp only [hcount]
        have := hj.2
        omega

/-! ## bhfs_read_iter: general facts -/

/-- The loop of `bhfs_read_iter` always ends within the steps it is given, so
the function returns on every input. -/
theorem bhfs_read_iter_returns (P : Nat) (env : Nat → chunk_env) (atime : Int) (iocb : kiocb)
    (iter : iov_iter) (ino : inode) :
    ∃ r, bhfs_read_iter P env atime iocb iter ino = some r := by
  unfold bhfs_read_iter
  split
  · exact ⟨_, rfl⟩
  · simp only []
    split
    · exact ⟨_, rfl⟩
    · obtain ⟨d, ret, he, -, -⟩ := read_loop_spec P env
        (iov_iter_count (iov_iter_truncate iter
          (to_u64 (loff_wrap (ino.i_size - iocb.ki_pos)))) + 1) 0
        { iter := iov_iter_truncate iter (to_u64 (loff_wrap (ino.i_size - iocb.ki_pos))),
          read_cnt := 0, ret := 0 } (Nat.lt_succ_self _)
      rw [he]
      simp only []
      split <;> exact ⟨_, rfl⟩

/-- A read with nothing to transfer returns 0 at once and changes nothing. -/
theorem bhfs_read_iter_early (P : Nat) (env : Nat → chunk_env) (atime : Int) (iocb : kiocb)
    (iter : iov_iter) (ino : inode) (h : iter.count = 0 ∨ ino.i_size ≤ iocb.ki_pos) :
    bhfs_read_iter P env atime iocb iter ino =
      some { ret := 0, iocb := iocb, iter := iter, inode := ino } := by
  unfold bhfs_read_iter
  by_cases hc : iov_iter_count iter = 0
  · rw [if_pos hc]
  · rw [if_neg hc]
    simp only []
    rcases h with h | h
    · exact absurd h hc
    · rw [if_pos h]

/-- For a position inside the file the truncation leaves exactly the clamped
length. -/
theorem truncate_eq (iocb : kiocb) (iter : iov_iter) (ino : inode)
    (hpos : 0 ≤ iocb.ki_pos) (hsz : ino.i_size ≤ LOFF_MAX) (ho : iocb.ki_pos < ino.i_size) :
    iov_iter_truncate iter (to_u64 (loff_wrap (ino.i_size - iocb.ki_pos))) =
      { iter with count := clamped iocb iter ino } := by
  have hsz1 : ino.i_size ≤ 9223372036854775807 := hsz
  rw [loff_wrap_id _ (by omega) (by unfold LOFF_MAX; omega),
    to_u64_id _ (by omega) (by unfold LOFF_MAX; omega)]
  unfold iov_iter_truncate clamped
  cases iter
  simp only []
  split
  · congr 1
    omega
  · congr 1
    omega

/-- How a read that enters the loop ends: `d` bytes stored, the loop leaves
`ret0`, and the result follows the test `0 < read_cnt`. -/
theorem bhfs_read_iter_run (P : Nat) (env : Nat → chunk_env) (atime : Int) (iocb : kiocb)
    (iter : iov_iter) (ino : inode) (hn : iter.count ≠ 0)
    (hpos : 0 ≤ iocb.ki_pos) (hsz : ino.i_size ≤ LOFF_MAX) (ho : iocb.ki_pos < ino.i_size) :
    ∃ d ret0, d ≤ clamped iocb iter ino ∧
      (ret0 = 0 ∨ ret0 = -EFAULT ∨ (ret0 = -ERESTARTSYS ∧ 0 < d)) ∧
      read_loop P env (clamped iocb iter ino + 1) 0
          { iter := { iter with count := clamped iocb iter ino }, read_cnt := 0, ret := 0 } =
        some { iter := iter_after { iter with count := clamped iocb iter ino } d,
               read_cnt := d, ret := ret0 } ∧
      bhfs_read_iter P env atime iocb iter ino =
        some (if 0 < d then
                { ret := d, iocb := { ki_pos := iocb.ki_pos + d },
                  iter := iter_after { iter with count := clamped iocb iter ino } d,
                  inode := { ino with i_atime := atime } }
              else
                { ret := ret0, iocb := iocb,
                  iter := iter_after { iter with count := clamped iocb iter ino } d,
                  inode := ino }) := by
  obtain ⟨d, ret0, he, hd, hr⟩ := read_loop_spec P env (clamped iocb iter ino + 1) 0
    { iter := { iter with count := clamped iocb iter ino }, read_cnt := 0, ret := 0 }
    (Nat.lt_succ_self _)
  simp only [Nat.zero_add] at he hd hr
  refine ⟨d, ret0, hd, hr, he, ?_⟩
  have hcl : (clamped iocb iter ino : Int) ≤ ino.i_size - iocb.ki_pos := by
    unfold clamped
    omega
  have hsz1 : ino.i_size ≤ 9223372036854775807 := hsz
  unfold bhfs_read_iter
  rw [if_neg (by simpa [iov_iter_count] using hn)]
  simp only []
  rw [if_neg (by omega), truncate_eq iocb iter ino hpos hsz ho]
  simp only [iov_iter_count]
  rw [he]
  simp only []
  by_cases h0 : 0 < d
  · rw [if_pos h0, if_pos h0, loff_wrap_id _ (by omega) (by unfold LOFF_MAX; omega),
      loff_wrap_id _ (by omega) (by unfold LOFF_MAX; omega)]
  · rw [if_neg h0, if_neg h0]

/-! ## bhfs_write_iter: general facts -/

theorem not_blk_of_reg (m : Nat) (h : S_ISREG m = true) : S_ISBLK m = false := by
  unfold S_ISREG at h
  unfold S_ISBLK
  have h1 : m &&& S_IFMT = S_IFREG := by simpa using h
  rw [h1]
  decide

theorem write_mode (env : write_env) (iocb : kiocb) (src : iov_iter) (ino : inode) :
    (bhfs_write_iter env iocb src ino).inode.i_mode = ino.i_mode := by
  unfold bhfs_write_iter
  simp only []
  split
  · split
    · split <;> rfl
    · rfl
  · rfl

/-- A write never shrinks the file. -/
theorem write_size_mono (env : write_env) (iocb : kiocb) (src : iov_iter) (ino : inode) :
    ino.i_size ≤ (bhfs_write_iter env iocb src ino).inode.i_size := by
  unfold bhfs_write_iter
  simp only []
  split
  · split
    · split
      · rename_i h
        exact le_of_lt h.1
      · exact le_refl _
    · exact le_refl _
  · exact le_refl _

/-- A write keeps the size within the range of `loff_t`. -/
theorem write_size_le (env : write_env) (iocb : kiocb) (src : iov_iter) (ino : inode)
    (h : ino.i_size ≤ LOFF_MAX) : (bhfs_write_iter env iocb src ino).inode.i_size ≤ LOFF_MAX := by
  unfold bhfs_write_iter
  simp only []
  split
  · split
    · split
      · exact loff_wrap_le _
      · exact h
    · exact h
  · exact h

theorem run_writes_size_le (ws : List write_req) :
    ∀ ino : inode, ino.i_size ≤ LOFF_MAX → (run_writes ino ws).i_size ≤ LOFF_MAX := by
  induction ws with
  | nil => intro ino h; exact h
  | cons w ws ih =>
    intro ino h
    exact ih _ (write_size_le _ _ _ _ h)

theorem run_writes_append (ws : List write_req) (w : write_req) :
    ∀ ino : inode, run_writes ino (ws ++ [w]) =
      (bhfs_write_iter w.env ⟨w.pos⟩ w.src (run_writes ino ws)).inode := by
  induction ws with
  | nil => intro ino; rfl
  | cons v ws ih => intro ino; exact ih _

/-- One accepted write moves the size to the larger of the old size and the
end offset of the write. -/
theorem write_accepted_size (w : write_req) (ino : inode) (hb : S_ISBLK ino.i_mode = false)
    (ha : accepted w) :
    (bhfs_write_iter w.env ⟨w.pos⟩ w.src ino).inode.i_size =
      max ino.i_size (w.pos + w.src.count) := by
  obtain ⟨h0, h1, h2, h3, h4, h5, h6⟩ := ha
  have h1a : w.pos + w.src.count ≤ 9223372036854775807 := h1
  unfold bhfs_write_iter
  simp only []
  rw [if_pos h2, if_pos h6]
  simp only [h4, h3, hb]
  rw [loff_wrap_id _ (by omega) h1]
  by_cases hlt : ino.i_size < w.pos + w.src.count
  · rw [if_pos ⟨hlt, by simp⟩]
    exact (max_eq_right (le_of_lt hlt)).symm
  · rw [if_neg (fun h => hlt h.1)]
    exact (max_eq_left (not_lt.mp hlt)).symm

theorem run_writes_size (ws : List write_req) :
    ∀ ino : inode, 0 ≤ ino.i_size → S_ISBLK ino.i_mode = false → (∀ w ∈ ws, accepted w) →
      (run_writes ino ws).i_size = max ino.i_size (max_end ws) := by
  induction ws with
  | nil =>
    intro ino h0 _ _
    simp only [run_writes, max_end]
    exact (max_eq_left h0).symm
  | cons w ws ih =>
    intro ino h0 hb ha
    have hw := ha w (List.mem_cons_self _ _)
    simp only [run_writes, max_end]
    rw [ih _ (le_trans h0 (write_size_mono _ _ _ _)) (by rw [write_mode]; exact hb)
        (fun v hv => ha v (List.mem_cons_of_mem _ hv)),
      write_accepted_size w ino hb hw, max_assoc]

theorem max_end_nonneg (ws : List write_req) : 0 ≤ max_end ws := by
  cases ws with
  | nil => exact le_refl _
  | cons w ws => exact le_max_of_le_right (by
      induction ws with
      | nil => exact le_refl _
      | cons v vs ih => exact le_max_of_le_right ih)

theorem le_max_end (ws : List write_req) : ∀ w ∈ ws, w.pos + w.src.count ≤ max_end ws := by
  induction ws with
  | nil => intro w hw; simp at hw
  | cons v vs ih =>
    intro w hw
    simp only [List.mem_cons] at hw
    rcases hw with hw | hw
    · rw [hw]
      exact le_max_left _ _
    · exact le_max_of_le_right (ih w hw)

theorem max_end_mem (ws : List write_req) (hne : ws ≠ [])
    (h : ∀ w ∈ ws, 0 ≤ w.pos + w.src.count) :
    ∃ w ∈ ws, max_end ws = w.pos + w.src.count := by
  induction ws with
  | nil => exact absurd rfl hne
  | cons v vs ih =>
    by_cases hle : max_end vs ≤ v.pos + v.src.count
    · exact ⟨v, List.mem_cons_self _ _, max_eq_left hle⟩
    · have hlt : v.pos + v.src.count < max_end vs := not_le.mp hle
      have hvs : vs ≠ [] := by
        intro h0
        rw [h0] at hlt
        have := h v (List.mem_cons_self _ _)
        simp only [max_end] at hlt
        omega
      obtain ⟨w, hw, he⟩ := ih hvs (fun w hw => h w (List.mem_cons_of_mem _ hw))
      exact ⟨w, List.mem_cons_of_mem _ hw, by
        simp only [max_end]
        rw [max_eq_right (le_of_lt hlt), he]⟩

/-! ## Claims about bhfs_write_iter -/

/-- C1: in a sequence of writes to a fresh regular file (size 0), each accepted
in full by the write checks and with a successful time stamp update, the size
after each write is the maximum of offset + length over the writes made so
far, and it is not smaller than the size before that write. -/
theorem write_size_is_max_end (ino0 : inode) (ws : List write_req)
    (hsize : ino0.i_size = 0) (hreg : S_ISREG ino0.i_mode = true)
    (hacc : ∀ w ∈ ws, accepted w) (k : Nat) (hk : k < ws.length) :
    (run_writes ino0 (ws.take (k + 1))).i_size = max_end (ws.take (k + 1)) ∧
    (∀ w ∈ ws.take (k + 1), w.pos + w.src.count ≤ (run_writes ino0 (ws.take (k + 1))).i_size) ∧
    (∃ w ∈ ws.take (k + 1), (run_writes ino0 (ws.take (k + 1))).i_size = w.pos + w.src.count) ∧
    (run_writes ino0 (ws.take k)).i_size ≤ (run_writes ino0 (ws.take (k + 1))).i_size := by
  have hsz : (run_writes ino0 (ws.take (k + 1))).i_size = max_end (ws.take (k + 1)) := by
    rw [run_writes_size _ ino0 (by omega) (not_blk_of_reg _ hreg)
      (fun w hw => hacc w (List.mem_of_mem_take hw)), hsize]
    exact max_eq_right (max_end_nonneg _)
  refine ⟨hsz, ?_, ?_, ?_⟩
  · rw [hsz]
    exact le_max_end _
  · rw [hsz]
    apply max_end_mem
    · intro h0
      have := congrArg List.length h0
      simp only [List.length_take, List.length_nil] at this
      omega
    · intro w hw
      have := hacc w (List.mem_of_mem_take hw)
      obtain ⟨h1, -, -, -, -, -, -⟩ := this
      omega
  · rw [List.take_succ, List.getElem?_eq_getElem hk]
    simp only [Option.toList]
    rw [run_writes_append]
    exact write_size_mono _ _ _ _

theorem write_size_is_max_end_witness :
    file0.i_size = 0 ∧ S_ISREG file0.i_mode = true ∧ (∀ w ∈ two_writes, accepted w) ∧
    1 < two_writes.length ∧
    (run_writes file0 (two_writes.take 2)).i_size = max_end (two_writes.take 2) ∧
    (∀ w ∈ two_writes.take 2,
      w.pos + w.src.count ≤ (run_writes file0 (two_writes.take 2)).i_size) ∧
    (∃ w ∈ two_writes.take 2,
      (run_writes file0 (two_writes.take 2)).i_size = w.pos + w.src.count) ∧
    (run_writes file0 (two_writes.take 1)).i_size ≤
      (run_writes file0 (two_writes.take 2)).i_size :=
  ⟨rfl, by decide, by decide, by decide,
    write_size_is_max_end file0 two_writes rfl (by decide) (by decide) 1 (by decide)⟩

/-- C6: a write that does not succeed (the write checks return an error or
zero, or they pass and the time stamp update fails) returns what the checks,
respectively the time stamp update, reported; the size of the inode is
unchanged; position and source iterator are as the checks left them, the
cursor of the iterator where it was. -/
theorem write_failure_changes_nothing (env : write_env) (iocb : kiocb) (src : iov_iter)
    (ino : inode) (h : env.chk_ret ≤ 0 ∨ (0 < env.chk_ret ∧ env.err ≠ 0)) :
    (bhfs_write_iter env iocb src ino).ret =
      (if env.chk_ret ≤ 0 then env.chk_ret else env.err) ∧
    (bhfs_write_iter env iocb src ino).inode.i_size = ino.i_size ∧
    (bhfs_write_iter env iocb src ino).iocb.ki_pos = env.chk_pos ∧
    (bhfs_write_iter env iocb src ino).iter = { src with count := env.chk_count } ∧
    (bhfs_write_iter env iocb src ino).iter.consumed = src.consumed := by
  unfold bhfs_write_iter
  simp only []
  rcases h with h | ⟨h1, h2⟩
  · rw [if_neg (by omega), if_pos h]
    exact ⟨rfl, rfl, rfl, rfl, rfl⟩
  · rw [if_pos h1, if_neg h2, if_neg (by omega)]
    exact ⟨rfl, rfl, rfl, rfl, rfl⟩

theorem write_failure_changes_nothing_witness :
    ((-27 : Int) ≤ 0 ∨ ((0 : Int) < -27 ∧ (0 : Int) ≠ 0)) ∧
    (bhfs_write_iter ⟨-27, 7, 3, 0, 5, 5⟩ ⟨7⟩ (src_of [1, 2, 3]) file0).ret = -27 ∧
    (bhfs_write_iter ⟨-27, 7, 3, 0, 5, 5⟩ ⟨7⟩ (src_of [1, 2, 3]) file0).inode.i_size = 0 ∧
    (bhfs_write_iter ⟨3, 7, 3, -5, 5, 5⟩ ⟨7⟩ (src_of [1, 2, 3]) file0).ret = -5 ∧
    (bhfs_write_iter ⟨3, 7, 3, -5, 5, 5⟩ ⟨7⟩ (src_of [1, 2, 3]) file0).iocb.ki_pos = 7 :=
  ⟨Or.inl (by decide),
    (write_failure_changes_nothing ⟨-27, 7, 3, 0, 5, 5⟩ ⟨7⟩ (src_of [1, 2, 3]) file0
      (Or.inl (by decide))).1,
    (write_failure_changes_nothing ⟨-27, 7, 3, 0, 5, 5⟩ ⟨7⟩ (src_of [1, 2, 3]) file0
      (Or.inl (by decide))).2.1,
    (write_failure_changes_nothing ⟨3, 7, 3, -5, 5, 5⟩ ⟨7⟩ (src_of [1, 2, 3]) file0
      (Or.inr ⟨by decide, by decide⟩)).1,
    (write_failure_changes_nothing ⟨3, 7, 3, -5, 5, 5⟩ ⟨7⟩ (src_of [1, 2, 3]) file0
      (Or.inr ⟨by decide, by decide⟩)).2.2.1⟩

/-! ## Claims about bhfs_read_iter -/

/-- C4: a read whose requested length is 0, or whose position is at or beyond
the size of the inode, returns 0, stores no byte and leaves the position, the
destination iterator and the inode as they were, whatever the signal state
and the destination. -/
theorem read_nothing_to_do (P : Nat) (env : Nat → chunk_env) (atime : Int) (iocb : kiocb)
    (iter : iov_iter) (ino : inode) (h : iter.count = 0 ∨ ino.i_size ≤ iocb.ki_pos) :
    bhfs_read_iter P env atime iocb iter ino =
      some { ret := 0, iocb := iocb, iter := iter, inode := ino } ∧
    produced iter iter = 0 :=
  ⟨bhfs_read_iter_early P env atime iocb iter ino h, by simp [produced]⟩

theorem read_nothing_to_do_witness :
    ((dst_of 8).count = 0 ∨ (run_writes file0 two_writes).i_size ≤ (105 : Int)) ∧
    bhfs_read_iter 4096 (signal_from 0) 9 ⟨105⟩ (dst_of 8) (run_writes file0 two_writes) =
      some { ret := 0, iocb := ⟨105⟩, iter := dst_of 8, inode := run_writes file0 two_writes } ∧
    produced (dst_of 8) (dst_of 8) = 0 :=
  ⟨Or.inr (by decide),
    read_nothing_to_do 4096 (signal_from 0) 9 ⟨105⟩ (dst_of 8) (run_writes file0 two_writes)
      (Or.inr (by decide))⟩

/-- C2: a read of length n > 0 at a position o below the size, with no signal
pending and a destination that takes every chunk, returns min (n, size - o);
the bytes it stores are all zero, whatever the writes that made the inode
supplied; and the position afterwards is o + min (n, size - o). -/
theorem read_full_returns_zeros (P : Nat) (env : Nat → chunk_env) (atime : Int) (iocb : kiocb)
    (iter : iov_iter) (ino0 : inode) (ws : List write_req)
    (hP : 0 < P) (hsz : ino0.i_size ≤ LOFF_MAX) (hpos : 0 ≤ iocb.ki_pos)
    (hn : 0 < iter.count) (ho : iocb.ki_pos < (run_writes ino0 ws).i_size)
    (henv : ∀ k, (env k).signal = false ∧
      min P (clamped iocb iter (run_writes ino0 ws) - k * P) ≤ (env k).accept) :
    ∃ r, bhfs_read_iter P env atime iocb iter (run_writes ino0 ws) = some r ∧
      r.ret = min (iter.count : Int) ((run_writes ino0 ws).i_size - iocb.ki_pos) ∧
      r.iter.stored = iter.stored ++ List.replicate r.ret.toNat 0 ∧
      produced iter r.iter = r.ret.toNat ∧
      r.iocb.ki_pos = iocb.ki_pos + min (iter.count : Int)
        ((run_writes ino0 ws).i_size - iocb.ki_pos) := by
  have hsz1 := run_writes_size_le ws ino0 hsz
  generalize run_writes ino0 ws = ino at ho henv hsz1 ⊢
  obtain ⟨d, ret0, hd, hr, hloop, hres⟩ :=
    bhfs_read_iter_run P env atime iocb iter ino (by omega) hpos hsz1 ho
  have hfull := read_loop_full P env hP (clamped iocb iter ino + 1) 0
    { iter := { iter with count := clamped iocb iter ino }, read_cnt := 0, ret := 0 }
    (Nat.lt_succ_self _) (by simpa using henv)
  rw [hfull] at hloop
  simp only [Nat.zero_add, Option.some.injEq, read_state.mk.injEq] at hloop
  have hcl : 0 < clamped iocb iter ino := by
    unfold clamped
    omega
  have hdc : d = clamped iocb iter ino := hloop.2.1.symm
  have hmin : ((clamped iocb iter ino : Nat) : Int) =
      min (iter.count : Int) (ino.i_size - iocb.ki_pos) := by
    unfold clamped
    omega
  rw [if_pos (by omega)] at hres
  refine ⟨_, hres, ?_, ?_, ?_, ?_⟩
  · simp only [hdc, hmin]
  · simp only [iter_after, Int.toNat_ofNat]
  · simp only [produced, iter_after, Int.toNat_ofNat, List.length_append,
      List.length_replicate]
    omega
  · simp only [hdc, hmin]

theorem read_full_returns_zeros_witness :
    0 < 4096 ∧ file0.i_size ≤ LOFF_MAX ∧ (0 : Int) ≤ 0 ∧ 0 < (dst_of 105).count ∧
    (0 : Int) < (run_writes file0 two_writes).i_size ∧
    (∀ k, (quiet k).signal = false ∧
      min 4096 (clamped ⟨0⟩ (dst_of 105) (run_writes file0 two_writes) - k * 4096) ≤
        (quiet k).accept) ∧
    ∃ r, bhfs_read_iter 4096 quiet 9 ⟨0⟩ (dst_of 105) (run_writes file0 two_writes) = some r ∧
      r.ret = min (((dst_of 105).count : Nat) : Int)
        ((run_writes file0 two_writes).i_size - 0) ∧
      r.iter.stored = (dst_of 105).stored ++ List.replicate r.ret.toNat 0 ∧
      produced (dst_of 105) r.iter = r.ret.toNat ∧
      r.iocb.ki_pos = 0 + min (((dst_of 105).count : Nat) : Int)
        ((run_writes file0 two_writes).i_size - 0) :=
  ⟨by decide, by decide, by decide, by decide, by decide,
    fun _ => ⟨rfl, Nat.min_le_left _ _⟩,
    read_full_returns_zeros 4096 quiet 9 ⟨0⟩ (dst_of 105) file0 two_writes (by decide)
      (by decide) (by decide) (by decide) (by decide) (fun _ => ⟨rfl, Nat.min_le_left _ _⟩)⟩

/-- C3, as stated, fails: a read of 1,000,000 bytes from a file of that size
during which a signal is seen after the second chunk (8192 of the 1,000,000
bytes stored) returns 8192, not -ERESTARTSYS. -/
theorem read_signal_returns_count :
    (∃ st, read_loop 4096 (signal_from 1) (1000000 + 1) 0
        { iter := dst_of 1000000, read_cnt := 0, ret := 0 } = some st ∧
      st.ret = -ERESTARTSYS ∧ st.read_cnt = 8192) ∧
    (bhfs_read_iter 4096 (signal_from 1) 9 ⟨0⟩ (dst_of 1000000)
        { file0 with i_size := 1000000 }).map (fun r => (r.ret, r.iocb.ki_pos)) =
      some (8192, 8192) ∧
    (bhfs_read_iter 4096 (signal_from 1) 9 ⟨0⟩ (dst_of 1000000)
        { file0 with i_size := 1000000 }).map (fun r => r.ret) ≠ some (-ERESTARTSYS) := by
  refine ⟨⟨_, rfl, by decide, by decide⟩, by decide, by decide⟩

/-- One iteration that stores at least one byte with no signal pending goes
on to the next iteration. -/
theorem read_loop_continue (P : Nat) (env : Nat → chunk_env) (fuel k : Nat) (s : read_state)
    (hc : s.iter.count ≠ 0) (hn : min (min P s.iter.count) (env k).accept ≠ 0)
    (hs : (env k).signal = false) :
    read_loop P env (fuel + 1) k s =
      read_loop P env fuel (k + 1)
        { iter := iter_after s.iter (min (min P s.iter.count) (env k).accept),
          read_cnt := s.read_cnt + min (min P s.iter.count) (env k).accept, ret := s.ret } := by
  have hch : min (min (if P < s.iter.count then P else s.iter.count) s.iter.count)
      (env k).accept = min (min P s.iter.count) (env k).accept := by
    split <;> omega
  rw [read_loop, if_neg (by simpa [iov_iter_count] using hc)]
  simp only [iov_iter_zero_eq, iov_iter_count, hch]
  rw [if_neg (fun h => hn h.1), if_neg (by rw [hs]; decide)]

/-- One iteration that stores at least one byte and then finds a signal
pending ends the loop with `ret = -ERESTARTSYS`. -/
theorem read_loop_signal (P : Nat) (env : Nat → chunk_env) (fuel k : Nat) (s : read_state)
    (hc : s.iter.count ≠ 0) (hn : min (min P s.iter.count) (env k).accept ≠ 0)
    (hs : (env k).signal = true) :
    read_loop P env (fuel + 1) k s =
      some { iter := iter_after s.iter (min (min P s.iter.count) (env k).accept),
             read_cnt := s.read_cnt + min (min P s.iter.count) (env k).accept,
             ret := -ERESTARTSYS } := by
  have hch : min (min (if P < s.iter.count then P else s.iter.count) s.iter.count)
      (env k).accept = min (min P s.iter.count) (env k).accept := by
    split <;> omega
  rw [read_loop, if_neg (by simpa [iov_iter_count] using hc)]
  simp only [iov_iter_zero_eq, iov_iter_count, hch]
  rw [if_neg (fun h => hn h.1), if_pos hs]

theorem stored_after_mono (P : Nat) (env : Nat → chunk_env) (m j : Nat) :
    ∀ d, stored_after P env m j ≤ stored_after P env m (j + d) := by
  intro d
  induction d with
  | zero => exact le_refl _
  | succ d ih =>
    rw [← Nat.add_assoc]
    simp only [stored_after]
    omega

/-- While no fault occurs and the transfer is not complete, every iteration
stores at least one byte. -/
theorem stored_after_grows (P : Nat) (env : Nat → chunk_env) (m k : Nat) (hP : 0 < P)
    (hacc : ∀ j, j ≤ k → 0 < (env j).accept)
    (hpart : stored_after P env m (k + 1) < m) :
    ∀ j, j ≤ k → stored_after P env m j < m ∧
      min (min P (m - stored_after P env m j)) (env j).accept ≠ 0 := by
  intro j hj
  have h1 : stored_after P env m j ≤ stored_after P env m (k + 1) := by
    have := stored_after_mono P env m j (k + 1 - j)
    rwa [show j + (k + 1 - j) = k + 1 by omega] at this
  have h2 := hacc j hj
  constructor
  · omega
  · omega

/-- The loop of a read, started on a transfer of `m` bytes, reaches iteration
`j` with `stored_after j` bytes stored if up to then no fault occurred, no
signal was pending and the transfer is not complete. -/
theorem read_loop_unroll (P : Nat) (env : Nat → chunk_env) (it : iov_iter) (k : Nat)
    (hP : 0 < P) (hacc : ∀ j, j ≤ k → 0 < (env j).accept)
    (hquiet : ∀ j, j < k → (env j).signal = false)
    (hpart : stored_after P env it.count (k + 1) < it.count) :
    ∀ j, j ≤ k → ∀ fuel,
      read_loop P env (fuel + j) 0 { iter := it, read_cnt := 0, ret := 0 } =
        read_loop P env fuel j
          { iter := iter_after it (stored_after P env it.count j),
            read_cnt := stored_after P env it.count j, ret := 0 } := by
  intro j
  induction j with
  | zero =>
    intro _ fuel
    simp only [stored_after, iter_after_zero, Nat.add_zero]
  | succ j ih =>
    intro hj fuel
    have hg := stored_after_grows P env it.count k hP hacc hpart j (by omega)
    have hcnt : (iter_after it (stored_after P env it.count j)).count =
        it.count - stored_after P env it.count j := rfl
    rw [show fuel + (j + 1) = (fuel + 1) + j by omega, ih (by omega) (fuel + 1),
      read_loop_continue P env fuel j _ (by rw [hcnt]; omega) (by rw [hcnt]; exact hg.2)
        (hquiet j (by omega))]
    simp only [hcnt, iter_after_add, Nat.zero_add, stored_after]

/-- C3 (amended): when a signal is pending after chunk `k` of a read, no
signal was pending after the chunks before it, each chunk up to `k` stored
at least one byte, and the bytes stored so far are fewer than the clamped
transfer, the read stops there with bytes left to transfer and returns the
number of bytes already stored, which is positive and so is not
-ERESTARTSYS; that number is less than the requested length, the bytes
stored are zero and the position is advanced by exactly that number. -/
theorem read_signal_keeps_progress (P : Nat) (env : Nat → chunk_env) (atime : Int)
    (iocb : kiocb) (iter : iov_iter) (ino : inode) (k : Nat)
    (hP : 0 < P) (hpos : 0 ≤ iocb.ki_pos) (hsz : ino.i_size ≤ LOFF_MAX)
    (hacc : ∀ j, j ≤ k → 0 < (env j).accept)
    (hquiet : ∀ j, j < k → (env j).signal = false)
    (hsig : (env k).signal = true)
    (hpart : stored_after P env (clamped iocb iter ino) (k + 1) < clamped iocb iter ino) :
    ∃ r, bhfs_read_iter P env atime iocb iter ino = some r ∧
      r.ret = stored_after P env (clamped iocb iter ino) (k + 1) ∧
      0 < r.ret ∧ r.ret ≠ -ERESTARTSYS ∧ r.ret < iter.count ∧
      0 < r.iter.count ∧
      produced iter r.iter = stored_after P env (clamped iocb iter ino) (k + 1) ∧
      r.iter.stored =
        iter.stored ++ List.replicate (stored_after P env (clamped iocb iter ino) (k + 1)) 0 ∧
      r.iocb.ki_pos = iocb.ki_pos + stored_after P env (clamped iocb iter ino) (k + 1) := by
  have hcl : stored_after P env (clamped iocb iter ino) (k + 1) <
      min iter.count (ino.i_size - iocb.ki_pos).toNat := hpart
  obtain ⟨d, ret0, hd, hr, hloop1, hres⟩ :=
    bhfs_read_iter_run P env atime iocb iter ino (by omega) hpos hsz (by omega)
  have hgk := stored_after_grows P env (clamped iocb iter ino) k hP hacc hpart k (le_refl _)
  have hkm : k ≤ clamped iocb iter ino := by
    have hall : ∀ j, j ≤ k → j ≤ stored_after P env (clamped iocb iter ino) j := by
      intro j
      induction j with
      | zero => intro _; exact Nat.zero_le _
      | succ j ih =>
        intro hj
        have := stored_after_grows P env (clamped iocb iter ino) k hP hacc hpart j (by omega)
        have := ih (by omega)
        simp only [stored_after]
        omega
    have := hall k (le_refl _)
    omega
  have hrun : read_loop P env (clamped iocb iter ino + 1) 0
      { iter := { iter with count := clamped iocb iter ino }, read_cnt := 0, ret := 0 } =
      some { iter := iter_after { iter with count := clamped iocb iter ino }
               (stored_after P env (clamped iocb iter ino) (k + 1)),
             read_cnt := stored_after P env (clamped iocb iter ino) (k + 1),
             ret := -ERESTARTSYS } := by
    have hu := read_loop_unroll P env { iter with count := clamped iocb iter ino } k hP hacc
      hquiet hpart k (le_refl _) (clamped iocb iter ino - k + 1)
    rw [show clamped iocb iter ino - k + 1 + k = clamped iocb iter ino + 1 by omega] at hu
    have hcnt : (iter_after { iter with count := clamped iocb iter ino }
        (stored_after P env (clamped iocb iter ino) k)).count =
        clamped iocb iter ino - stored_after P env (clamped iocb iter ino) k := rfl
    rw [hu, read_loop_signal P env _ k _ (by rw [hcnt]; omega) (by rw [hcnt]; exact hgk.2) hsig]
    simp only [hcnt, iter_after_add, stored_after, Nat.zero_add]
  rw [hrun] at hloop1
  simp only [Option.some.injEq, read_state.mk.injEq] at hloop1
  have hdk : stored_after P env (clamped iocb iter ino) (k + 1) = d := hloop1.2.1
  have hd0 : 0 < d := by
    rw [← hdk]
    simp only [stored_after]
    omega
  rw [if_pos hd0] at hres
  rw [hdk] at hcl ⊢
  refine ⟨_, hres, rfl, ?_, ?_, ?_, ?_, ?_, rfl, rfl⟩
  · simp only []
    omega
  · simp only [ERESTARTSYS]
    omega
  · simp only []
    omega
  · simp only [iter_after]
    unfold clamped
    omega
  · simp only [produced, iter_after, List.length_append, List.length_replicate]
    omega

theorem read_signal_keeps_progress_witness :
    0 < 4 ∧ (0 : Int) ≤ 0 ∧ (100 : Int) ≤ LOFF_MAX ∧
    (∀ j, j ≤ 1 → 0 < (signal_from 1 j).accept) ∧
    (∀ j, j < 1 → (signal_from 1 j).signal = false) ∧
    (signal_from 1 1).signal = true ∧
    stored_after 4 (signal_from 1) (clamped ⟨0⟩ (dst_of 100) { file0 with i_size := 100 }) (1 + 1) <
      clamped ⟨0⟩ (dst_of 100) { file0 with i_size := 100 } ∧
    ∃ r, bhfs_read_iter 4 (signal_from 1) 9 ⟨0⟩ (dst_of 100) { file0 with i_size := 100 } =
        some r ∧
      r.ret = stored_after 4 (signal_from 1)
        (clamped ⟨0⟩ (dst_of 100) { file0 with i_size := 100 }) (1 + 1) ∧
      0 < r.ret ∧ r.ret ≠ -ERESTARTSYS ∧ r.ret < (dst_of 100).count ∧
      0 < r.iter.count ∧
      produced (dst_of 100) r.iter = stored_after 4 (signal_from 1)
        (clamped ⟨0⟩ (dst_of 100) { file0 with i_size := 100 }) (1 + 1) ∧
      r.iter.stored = (dst_of 100).stored ++ List.replicate (stored_after 4 (signal_from 1)
        (clamped ⟨0⟩ (dst_of 100) { file0 with i_size := 100 }) (1 + 1)) 0 ∧
      r.iocb.ki_pos = 0 + stored_after 4 (signal_from 1)
        (clamped ⟨0⟩ (dst_of 100) { file0 with i_size := 100 }) (1 + 1) :=
  ⟨by decide, by decide, by decide, fun _ _ => (by decide : 0 < 4096),
    fun j hj => by
      have h0 : j = 0 := by omega
      rw [h0]
      rfl,
    by decide, by decide,
    read_signal_keeps_progress 4 (signal_from 1) 9 ⟨0⟩ (dst_of 100) { file0 with i_size := 100 }
      1 (by decide) (by decide) (by decide) (fun _ _ => (by decide : 0 < 4096))
      (fun j hj => by
        have h0 : j = 0 := by omega
        rw [h0]
        rfl)
      (by decide) (by decide)⟩

/-- C10: for every read, whatever the signals and the faults of the
destination: a negative return value means that no byte was stored and the
position is unchanged; as soon as a byte was stored the return value is the
number of bytes stored, at most min (requested length, size - position), and
the position is advanced by exactly the return value.  The bytes stored are
zero. -/
theorem read_return_counts_stored_bytes (P : Nat) (env : Nat → chunk_env) (atime : Int)
    (iocb : kiocb) (iter : iov_iter) (ino : inode)
    (hpos : 0 ≤ iocb.ki_pos) (hsz : ino.i_size ≤ LOFF_MAX) :
    ∃ r, bhfs_read_iter P env atime iocb iter ino = some r ∧
      r.iter.stored = iter.stored ++ List.replicate (produced iter r.iter) 0 ∧
      (r.ret < 0 → produced iter r.iter = 0 ∧ r.iocb.ki_pos = iocb.ki_pos) ∧
      (0 < produced iter r.iter →
        r.ret = produced iter r.iter ∧
        r.ret ≤ min (iter.count : Int) (ino.i_size - iocb.ki_pos) ∧
        r.iocb.ki_pos = iocb.ki_pos + r.ret) := by
  by_cases h : iter.count = 0 ∨ ino.i_size ≤ iocb.ki_pos
  · refine ⟨_, bhfs_read_iter_early P env atime iocb iter ino h, ?_, ?_, ?_⟩
    · simp [produced]
    · intro h0
      simp only [] at h0
      omega
    · intro h0
      simp [produced] at h0
  · have h1 : iter.count ≠ 0 ∧ iocb.ki_pos < ino.i_size := by
      constructor
      · exact fun h0 => h (Or.inl h0)
      · exact not_le.mp (fun h0 => h (Or.inr h0))
    obtain ⟨d, ret0, hd, hr, -, hres⟩ :=
      bhfs_read_iter_run P env atime iocb iter ino h1.1 hpos hsz h1.2
    have hp : ∀ e : Nat, produced iter (iter_after { iter with count := e } d) = d := by
      intro e
      simp only [produced, iter_after, List.length_append, List.length_replicate]
      omega
    have hcl : ((clamped iocb iter ino : Nat) : Int) =
        min (iter.count : Int) (ino.i_size - iocb.ki_pos) := by
      unfold clamped
      omega
    by_cases hd0 : 0 < d
    · rw [if_pos hd0] at hres
      refine ⟨_, hres, ?_, ?_, ?_⟩
      · simp only [hp]
        rfl
      · intro h0
        simp only [] at h0
        omega
      · intro _
        simp only [hp]
        refine ⟨trivial, ?_, trivial⟩
        rw [← hcl]
        exact_mod_cast hd
    · rw [if_neg hd0] at hres
      refine ⟨_, hres, ?_, ?_, ?_⟩
      · simp only [hp]
        rfl
      · intro _
        simp only [hp]
        exact ⟨by omega, trivial⟩
      · intro h0
        simp only [hp] at h0
        exact absurd h0 hd0

theorem read_return_counts_stored_bytes_witness :
    (0 : Int) ≤ 0 ∧ (8 : Int) ≤ LOFF_MAX ∧
    ∃ r, bhfs_read_iter 4 faulty 9 ⟨0⟩ (dst_of 8) { file0 with i_size := 8 } = some r ∧
      r.iter.stored = (dst_of 8).stored ++ List.replicate (produced (dst_of 8) r.iter) 0 ∧
      (r.ret < 0 → produced (dst_of 8) r.iter = 0 ∧ r.iocb.ki_pos = 0) ∧
      (0 < produced (dst_of 8) r.iter →
        r.ret = produced (dst_of 8) r.iter ∧
        r.ret ≤ min (((dst_of 8).count : Nat) : Int) (8 - 0) ∧
        r.iocb.ki_pos = 0 + r.ret) :=
  ⟨by decide, by decide,
    read_return_counts_stored_bytes 4 faulty 9 ⟨0⟩ (dst_of 8) { file0 with i_size := 8 }
      (by decide) (by decide)⟩

/-! ## Pointers into the heap -/

theorem length_modify_at {α : Type} (f : α → α) :
    ∀ (l : List α) (i : Nat), (modify_at f l i).length = l.length := by
  intro l
  induction l with
  | nil => intro i; rfl
  | cons x xs ih =>
    intro i
    cases i with
    | zero => rfl
    | succ n => simp [modify_at, ih]

theorem getElem?_modify_at {α : Type} (f : α → α) :
    ∀ (l : List α) (i j : Nat),
      (modify_at f l i)[j]? = if i = j then l[j]?.map f else l[j]? := by
  intro l
  induction l with
  | nil => intro i j; simp [modify_at]
  | cons x xs ih =>
    intro i j
    cases i with
    | zero =>
      cases j with
      | zero => simp [modify_at]
      | succ m => simp [modify_at]
    | succ n =>
      cases j with
      | zero => simp [modify_at]
      | succ m => simp [modify_at, ih]

theorem modify_at_append_left {α : Type} (f : α → α) (m : List α) :
    ∀ (l : List α) (i : Nat), i < l.length →
      modify_at f (l ++ m) i = modify_at f l i ++ m := by
  intro l
  induction l with
  | nil => intro i h; simp at h
  | cons x xs ih =>
    intro i h
    cases i with
    | zero => rfl
    | succ n =>
      simp only [List.cons_append, modify_at, List.cons.injEq, true_and]
      exact ih n (by simpa using h)

theorem modify_at_append_last {α : Type} (f : α → α) (x : α) :
    ∀ (l : List α), modify_at f (l ++ [x]) l.length = l ++ [f x] := by
  intro l
  induction l with
  | nil => rfl
  | cons y ys ih => simp [modify_at, ih]

theorem modify_at_twice {α : Type} (f g : α → α) :
    ∀ (l : List α) (i : Nat),
      modify_at g (modify_at f l i) i = modify_at (fun x => g (f x)) l i := by
  intro l
  induction l with
  | nil => intro i; rfl
  | cons x xs ih =>
    intro i
    cases i with
    | zero => rfl
    | succ n => simp [modify_at, ih]

/-! ## Mode bits -/

theorem init_owner_fmt (dir : Option inode) (mode : Nat) :
    inode_init_owner dir mode &&& S_IFMT = mode &&& S_IFMT := by
  unfold inode_init_owner
  split
  · split
    · rw [Nat.and_distrib_right]
      have : S_ISGID &&& S_IFMT = 0 := by decide
      rw [this, Nat.or_zero]
    · rfl
  · rfl

theorem or_dir_fmt (mode : Nat) (h : mode &&& S_IFMT = 0) :
    (mode ||| S_IFDIR) &&& S_IFMT = S_IFDIR := by
  rw [Nat.and_distrib_right, h]
  decide

theorem or_reg_fmt (mode : Nat) (h : mode &&& S_IFMT = 0) :
    (mode ||| S_IFREG) &&& S_IFMT = S_IFREG := by
  rw [Nat.and_distrib_right, h]
  decide

theorem or_dir_not_reg (mode : Nat) : (mode ||| S_IFDIR) &&& S_IFMT ≠ S_IFREG := by
  intro h
  have h1 := congrArg (fun x => Nat.testBit x 14) h
  have a : Nat.testBit S_IFDIR 14 = true := by decide
  have b : Nat.testBit S_IFMT 14 = true := by decide
  have c : Nat.testBit S_IFREG 14 = false := by decide
  simp only [Nat.testBit_and, Nat.testBit_or, a, b, c, Bool.or_true, Bool.and_true] at h1
  exact absurd h1 (by decide)

theorem or_reg_not_dir (mode : Nat) : (mode ||| S_IFREG) &&& S_IFMT ≠ S_IFDIR := by
  intro h
  have h1 := congrArg (fun x => Nat.testBit x 15) h
  have a : Nat.testBit S_IFREG 15 = true := by decide
  have b : Nat.testBit S_IFMT 15 = true := by decide
  have c : Nat.testBit S_IFDIR 15 = false := by decide
  simp only [Nat.testBit_and, Nat.testBit_or, a, b, c, Bool.or_true, Bool.and_true] at h1
  exact absurd h1 (by decide)

theorem isdir_iff (m : Nat) : S_ISDIR m = true ↔ m &&& S_IFMT = S_IFDIR := by
  simp [S_ISDIR]

theorem isreg_iff (m : Nat) : S_ISREG m = true ↔ m &&& S_IFMT = S_IFREG := by
  simp [S_ISREG]

/-! ## bhfs_mknod, bhfs_mkdir, bhfs_create: the shape of the result -/

/-- The inode `bhfs_get_inode` builds from the fresh inode `i0`. -/
theorem get_inode_cases (env : alloc_env) (s : fs) (dir : Option Nat) (m dev : Nat)
    (p : Option Nat) (t : fs) (h : bhfs_get_inode env s dir m dev = some (p, t)) :
    (env.new_inode = none ∧ p = none ∧ t = s) ∨
    (∃ i0 c, env.new_inode = some i0 ∧ p = some s.inodes.length ∧
      t = { s with inodes := s.inodes ++ [c] } ∧ built_from env m i0 c) := by
  unfold bhfs_get_inode at h
  cases hn : env.new_inode with
  | none =>
    rw [hn] at h
    simp only [Option.some.injEq, Prod.mk.injEq] at h
    exact Or.inl ⟨rfl, h.1.symm, h.2.symm⟩
  | some i0 =>
    rw [hn] at h
    simp only [] at h
    right
    by_cases hr : m &&& S_IFMT = S_IFREG
    · rw [if_pos hr] at h
      simp only [Option.some.injEq, Prod.mk.injEq] at h
      exact ⟨i0, _, rfl, h.1.symm, h.2.symm, by simp only [init_owner_fmt], rfl, rfl, rfl, rfl,
        Or.inl ⟨hr, rfl, rfl, rfl⟩⟩
    · rw [if_neg hr] at h
      by_cases hd : m &&& S_IFMT = S_IFDIR
      · rw [if_pos hd] at h
        simp only [Option.some.injEq, Prod.mk.injEq] at h
        exact ⟨i0, _, rfl, h.1.symm, h.2.symm, by simp only [inc_nlink, init_owner_fmt],
          rfl, rfl, rfl, rfl, Or.inr ⟨hd, rfl, rfl, rfl⟩⟩
      · rw [if_neg hd] at h
        exact absurd h (by simp)


/-- The two ways `bhfs_mknod` returns: -ENOSPC with nothing changed, or 0
with the new inode appended, bound to the entry, and the directory touched. -/
theorem mknod_cases (env : alloc_env) (now : Int) (s : fs) (dir de m dev : Nat) (r : Int)
    (t : fs) (h : bhfs_mknod env now s dir de m dev = some (r, t)) :
    (env.new_inode = none ∧ r = -ENOSPC ∧ t = s) ∨
    (∃ i0 c, env.new_inode = some i0 ∧ r = 0 ∧ built_from env m i0 c ∧
      t = { sb := s.sb,
            inodes := modify_at (touch_dir now) (s.inodes ++ [c]) dir,
            dentries := modify_at (bind_entry s.inodes.length) s.dentries de }) := by
  unfold bhfs_mknod at h
  cases hg : bhfs_get_inode env s (some dir) m dev with
  | none =>
    rw [hg] at h
    exact absurd h (by simp)
  | some pt =>
    obtain ⟨p, u⟩ := pt
    rw [hg] at h
    rcases get_inode_cases env s (some dir) m dev p u hg with ⟨h1, h2, h3⟩ | ⟨i0, c, h1, h2, h3, h4⟩
    · subst h2
      simp only [Option.some.injEq, Prod.mk.injEq] at h
      exact Or.inl ⟨h1, h.1.symm, by rw [← h.2, h3]⟩
    · subst h2
      simp only [Option.some.injEq, Prod.mk.injEq] at h
      refine Or.inr ⟨i0, c, h1, h.1.symm, h4, ?_⟩
      rw [← h.2, h3]
      simp only [dget, d_instantiate, fs.mk.injEq, true_and]
      refine ⟨rfl, ?_⟩
      rw [modify_at_twice]
      rfl

/-- For a mode that names a regular file or a directory `bhfs_mknod` returns. -/
theorem mknod_returns (env : alloc_env) (now : Int) (s : fs) (dir de m dev : Nat)
    (hm : m &&& S_IFMT = S_IFREG ∨ m &&& S_IFMT = S_IFDIR) :
    ∃ r t, bhfs_mknod env now s dir de m dev = some (r, t) := by
  unfold bhfs_mknod bhfs_get_inode
  cases env.new_inode with
  | none => exact ⟨_, _, rfl⟩
  | some i0 =>
    simp only []
    rcases hm with hm | hm
    · rw [if_pos hm]
      exact ⟨_, _, rfl⟩
    · rw [if_neg (by rw [hm]; decide), if_pos hm]
      exact ⟨_, _, rfl⟩

/-- The two ways `bhfs_mkdir` returns. -/
theorem mkdir_cases (env : alloc_env) (now : Int) (s : fs) (dir de mode : Nat) (r : Int)
    (t : fs) (h : bhfs_mkdir env now s dir de mode = some (r, t)) :
    (env.new_inode = none ∧ r = -ENOSPC ∧ t = s) ∨
    (∃ i0 c, env.new_inode = some i0 ∧ r = 0 ∧ S_ISDIR c.i_mode = true ∧
      c.i_nlink = (i0.i_nlink + 1) % 4294967296 ∧ c.i_size = i0.i_size ∧
      c.i_op = .bhfs_dir_inode_operations ∧
      t = { sb := s.sb,
            inodes := modify_at inc_nlink (modify_at (touch_dir now) (s.inodes ++ [c]) dir) dir,
            dentries := modify_at (bind_entry s.inodes.length) s.dentries de }) := by
  unfold bhfs_mkdir at h
  cases hg : bhfs_mknod env now s dir de (mode ||| S_IFDIR) 0 with
  | none =>
    rw [hg] at h
    exact absurd h (by simp)
  | some pt =>
    obtain ⟨q, u⟩ := pt
    rw [hg] at h
    simp only [] at h
    rcases mknod_cases env now s dir de _ 0 q u hg with ⟨h1, h2, h3⟩ | ⟨i0, c, h1, h2, h3, h4⟩
    · rw [if_neg (by rw [h2]; decide)] at h
      simp only [Option.some.injEq, Prod.mk.injEq] at h
      exact Or.inl ⟨h1, by rw [← h.1, h2], by rw [← h.2, h3]⟩
    · rw [if_pos h2] at h
      simp only [Option.some.injEq, Prod.mk.injEq] at h
      obtain ⟨b1, b2, -, -, -, b6⟩ := h3
      rcases b6 with b6 | b6
      · exact absurd b6.1 (or_dir_not_reg mode)
      · refine Or.inr ⟨i0, c, h1, by rw [← h.1, h2], ?_, b6.2.1, b2, b6.2.2.1, ?_⟩
        · rw [isdir_iff, b1, b6.1]
        · rw [← h.2, h4]

/-- The two ways `bhfs_create` returns. -/
theorem create_cases (env : alloc_env) (now : Int) (s : fs) (dir de mode : Nat) (excl : Bool)
    (r : Int) (t : fs) (h : bhfs_create env now s dir de mode excl = some (r, t)) :
    (env.new_inode = none ∧ r = -ENOSPC ∧ t = s) ∨
    (∃ i0 c, env.new_inode = some i0 ∧ r = 0 ∧ S_ISREG c.i_mode = true ∧
      c.i_nlink = i0.i_nlink ∧ c.i_size = i0.i_size ∧
      c.i_op = .bhfs_file_inode_operations ∧
      t = { sb := s.sb,
            inodes := modify_at (touch_dir now) (s.inodes ++ [c]) dir,
            dentries := modify_at (bind_entry s.inodes.length) s.dentries de }) := by
  unfold bhfs_create at h
  rcases mknod_cases env now s dir de _ 0 r t h with h1 | ⟨i0, c, h1, h2, h3, h4⟩
  · exact Or.inl h1
  · obtain ⟨b1, b2, -, -, -, b6⟩ := h3
    rcases b6 with b6 | b6
    · refine Or.inr ⟨i0, c, h1, h2, ?_, b6.2.1, b2, b6.2.2.1, h4⟩
      rw [isreg_iff, b1, b6.1]
    · exact absurd b6.1 (or_reg_not_dir mode)

/-! ## Many subdirectories in one directory -/

theorem many_dirs_zero :
    bhfs_fill_super LOFF_MAX 4096 12 (env_at 0 0) true fs_blank = some (0, many_dirs 0) := by
  decide

theorem many_dirs_root (n : Nat) : (many_dirs n).inodes[0]? = some (many_root n) := by
  simp [many_dirs]

theorem d_alloc_many_dirs_root (n : Nat) :
    (d_alloc (many_dirs n) 0).inodes[0]? = some (many_root n) := by
  simp [d_alloc, many_dirs]

/-- One more mkdir in the root of `many_dirs n` gives `many_dirs (n + 1)`. -/
theorem mkdir_many_dirs (n : Nat) :
    bhfs_mkdir (env_at 0 0) 0 (d_alloc (many_dirs n) 0) 0 (n + 1) 0 =
      some (0, many_dirs (n + 1)) := by
  have hlen : ((List.range n).map sub_entry).length = n := by simp
  have hm : (0 ||| S_IFDIR) &&& S_IFMT = S_IFDIR := by decide
  have hm2 : ¬ ((0 ||| S_IFDIR) &&& S_IFMT = S_IFREG) := by decide
  have hlast : ∀ (f : dentry → dentry) (e : dentry),
      modify_at f ((List.range n).map sub_entry ++ [e]) n =
        (List.range n).map sub_entry ++ [f e] := by
    intro f e
    have := modify_at_append_last f e ((List.range n).map sub_entry)
    rwa [hlen] at this
  have hmode : inode_init_owner (some (many_root n)) (0 ||| S_IFDIR) = 0o040000 := by
    unfold inode_init_owner
    simp only [many_root, dir_inode]
    rw [if_neg (by decide)]
    decide
  have hroot : inc_nlink (touch_dir 0 (many_root n)) = many_root (n + 1) := by
    simp only [inc_nlink, touch_dir, many_root, dir_inode, inode.mk.injEq, true_and, and_true]
    omega
  unfold bhfs_mkdir bhfs_mknod bhfs_get_inode
  simp only [env_at, if_pos hm, if_neg hm2, d_alloc, many_dirs, dget, d_instantiate,
    List.cons_append, modify_at, modify_at_twice, hlast, Option.bind, List.getElem?_cons_zero,
    hmode, if_true, List.length_cons, List.length_replicate, List.range_succ, List.map_append,
    List.map_cons, List.map_nil]
  rw [List.replicate_succ']
  change some ((0 : Int), ({ sb := sb_mounted,
                             inodes := inc_nlink (touch_dir 0 (many_root n)) ::
                               (List.replicate n (dir_inode 0 0o040000 2 0 0) ++
                                 [dir_inode 0 0o040000 2 0 0]),
                             dentries := ⟨none, some 0, 1⟩ ::
                               ((List.range n).map sub_entry ++ [sub_entry n]) } : fs)) = _
  rw [hroot]

theorem mkdir_many_dirs_at (n m : Nat) (h : m = n + 1) :
    bhfs_mkdir (env_at 0 0) 0 (d_alloc (many_dirs n) 0) 0 m 0 = some (0, many_dirs m) := by
  subst h
  exact mkdir_many_dirs n

/-- The state after `n` calls of mkdir in the root is reachable. -/
theorem reachable_many_dirs (n : Nat) : Reachable (many_dirs n) := by
  induction n with
  | zero =>
    exact Reachable.mount LOFF_MAX 4096 12 (env_at 0 0) true (many_dirs 0) (by decide)
      (le_refl _) (by decide) many_dirs_zero
  | succ n ih =>
    refine Reachable.step (many_dirs n) (.mkdir 0 0 (env_at 0 0) 0) (many_dirs (n + 1)) ih
      (show fresh_inode (env_at 0 0) by decide) ?_
    have hlen : (many_dirs n).dentries.length = n + 1 := by simp [many_dirs]
    have h0 : (many_dirs n).inodes[0]? = some (many_root n) := by simp [many_dirs]
    simp only [apply_op, h0, hlen]
    rw [if_pos (by rfl), mkdir_many_dirs]
    rfl

/-- The root of `many_dirs n` has `n` child subdirectories. -/
theorem nr_subdirs_many_dirs (n : Nat) : nr_subdirs (many_dirs n) 0 = n := by
  unfold nr_subdirs
  simp only [many_dirs]
  have hroot : is_subdir_of (many_root n :: List.replicate n (dir_inode 0 0o040000 2 0 0)) 0
      ⟨none, some 0, 1⟩ = false := by
    simp [is_subdir_of]
  rw [List.countP_cons, hroot]
  have hall : ∀ e ∈ (List.range n).map sub_entry,
      is_subdir_of (many_root n :: List.replicate n (dir_inode 0 0o040000 2 0 0)) 0 e = true := by
    intro e he
    simp only [List.mem_map, List.mem_range] at he
    obtain ⟨k, hk, rfl⟩ := he
    have hget : (List.replicate n (dir_inode 0 0o040000 2 0 0))[k]? =
        some (dir_inode 0 0o040000 2 0 0) := by
      rw [List.getElem?_eq_getElem (by simpa using hk)]
      simp
    simp only [is_subdir_of, sub_entry, List.getElem?_cons_succ, hget]
    decide
  rw [List.countP_eq_length.mpr hall]
  simp


/-! ## Claims about mkdir and create -/

/-- C5, as stated, fails: in the state reached by a mount and 4294967293
calls of mkdir in the root, the root has link count 4294967295, and one more
successful mkdir leaves it with link count 0, not 4294967296. -/
theorem mkdir_link_count_wraps :
    Reachable (many_dirs 4294967293) ∧
    (d_alloc (many_dirs 4294967293) 0).inodes[0]? = some (many_root 4294967293) ∧
    (many_root 4294967293).i_nlink = 4294967295 ∧
    bhfs_mkdir (env_at 0 0) 0 (d_alloc (many_dirs 4294967293) 0) 0 4294967294 0 =
      some (0, many_dirs 4294967294) ∧
    (many_dirs 4294967294).inodes[0]? = some (many_root 4294967294) ∧
    (many_root 4294967294).i_nlink = 0 ∧
    (many_root 4294967294).i_nlink ≠ (many_root 4294967293).i_nlink + 1 :=
  ⟨reachable_many_dirs 4294967293, d_alloc_many_dirs_root 4294967293, by decide,
    mkdir_many_dirs_at 4294967293 4294967294 (by decide), many_dirs_root 4294967294,
    by decide, by decide⟩

/-- C5 (amended): after a successful mkdir the link count of the parent
directory is its previous link count plus 1 modulo 2^32, that is exactly the
previous link count plus 1 unless that was 4294967295, and the new directory
inode has link count 2, given that the inode the kernel hands out has link
count 1. -/
theorem mkdir_link_counts (env : alloc_env) (now : Int) (s : fs) (dir de mode : Nat)
    (d : inode) (t : fs)
    (hfresh : ∀ i0, env.new_inode = some i0 → i0.i_nlink = 1)
    (hd : s.inodes[dir]? = some d)
    (h : bhfs_mkdir env now s dir de mode = some (0, t)) :
    (∃ d1, t.inodes[dir]? = some d1 ∧ d1.i_nlink = (d.i_nlink + 1) % 4294967296 ∧
      (d.i_nlink < 4294967295 → d1.i_nlink = d.i_nlink + 1)) ∧
    (∃ c, t.inodes[s.inodes.length]? = some c ∧ S_ISDIR c.i_mode = true ∧ c.i_nlink = 2) ∧
    t.inodes.length = s.inodes.length + 1 ∧
    (∀ e, s.dentries[de]? = some e →
      ∃ e1, t.dentries[de]? = some e1 ∧ e1.d_inode = some s.inodes.length) := by
  have hlt : dir < s.inodes.length := by
    rcases Nat.lt_or_ge dir s.inodes.length with h1 | h1
    · exact h1
    · rw [List.getElem?_eq_none h1] at hd
      exact absurd hd (by simp)
  rcases mkdir_cases env now s dir de mode 0 t h with ⟨-, h2, -⟩ | ⟨i0, c, h1, -, h3, h4, -, -, h7⟩
  · exact absurd h2 (by decide)
  · have hin : modify_at inc_nlink (modify_at (touch_dir now) (s.inodes ++ [c]) dir) dir =
        modify_at (fun x => inc_nlink (touch_dir now x)) s.inodes dir ++ [c] := by
      rw [modify_at_twice, modify_at_append_left _ _ _ _ hlt]
    rw [h7]
    simp only [hin]
    refine ⟨⟨inc_nlink (touch_dir now d), ?_, rfl, fun hlt1 => ?_⟩, ⟨c, ?_, h3, ?_⟩, ?_, ?_⟩
    · rw [List.getElem?_append_left (by rw [length_modify_at]; exact hlt),
        getElem?_modify_at, if_pos rfl, hd]
      rfl
    · simp only [inc_nlink, touch_dir]
      omega
    · rw [List.getElem?_append_right (by rw [length_modify_at]), length_modify_at]
      simp
    · rw [h4, hfresh i0 h1]
    · simp [length_modify_at]
    · intro e he
      exact ⟨bind_entry s.inodes.length e, by rw [getElem?_modify_at, if_pos rfl, he]; rfl, rfl⟩

theorem mkdir_link_counts_witness :
    (∀ i0, (env_at 2 20).new_inode = some i0 → i0.i_nlink = 1) ∧
    (d_alloc fs_root 0).inodes[0]? = some (dir_inode 1 0o040000 2 10 10) ∧
    bhfs_mkdir (env_at 2 20) 21 (d_alloc fs_root 0) 0 1 0o755 = some (0, fs_d) ∧
    (∃ d1, fs_d.inodes[0]? = some d1 ∧
      d1.i_nlink = ((dir_inode 1 0o040000 2 10 10).i_nlink + 1) % 4294967296 ∧
      ((dir_inode 1 0o040000 2 10 10).i_nlink < 4294967295 →
        d1.i_nlink = (dir_inode 1 0o040000 2 10 10).i_nlink + 1)) ∧
    (∃ c, fs_d.inodes[(d_alloc fs_root 0).inodes.length]? = some c ∧
      S_ISDIR c.i_mode = true ∧ c.i_nlink = 2) ∧
    fs_d.inodes.length = (d_alloc fs_root 0).inodes.length + 1 ∧
    (∀ e, (d_alloc fs_root 0).dentries[1]? = some e →
      ∃ e1, fs_d.dentries[1]? = some e1 ∧
        e1.d_inode = some (d_alloc fs_root 0).inodes.length) :=
  ⟨fun i0 h => by
      have h1 : blank = i0 := by simpa [env_at] using h
      rw [← h1]
      rfl,
    by decide, by decide,
    mkdir_link_counts (env_at 2 20) 21 (d_alloc fs_root 0) 0 1 0o755
      (dir_inode 1 0o040000 2 10 10) fs_d
      (fun i0 h => by
        have h1 : blank = i0 := by simpa [env_at] using h
        rw [← h1]
        rfl)
      (by decide) (by decide)⟩

/-- What a successful `bhfs_mknod` leaves: the entry bound to the new inode,
the new inode in the heap, the time stamps of the directory set. -/
theorem bound_and_touched (g : inode → inode) (now : Int) (s : fs) (dir de : Nat)
    (c d : inode) (e : dentry) (hd : s.inodes[dir]? = some d) (he : s.dentries[de]? = some e)
    (hg : ∀ x, (g x).i_mtime = now ∧ (g x).i_ctime = now) :
    (∃ e1, (modify_at (bind_entry s.inodes.length) s.dentries de)[de]? = some e1 ∧
      e1.d_inode = some s.inodes.length) ∧
    (modify_at g (s.inodes ++ [c]) dir)[s.inodes.length]? = some c ∧
    (∃ d1, (modify_at g (s.inodes ++ [c]) dir)[dir]? = some d1 ∧
      d1.i_mtime = now ∧ d1.i_ctime = now) := by
  have hlt : dir < s.inodes.length := by
    rcases Nat.lt_or_ge dir s.inodes.length with h1 | h1
    · exact h1
    · rw [List.getElem?_eq_none h1] at hd
      exact absurd hd (by simp)
  refine ⟨⟨bind_entry s.inodes.length e, ?_, rfl⟩, ?_, ⟨g d, ?_, (hg d).1, (hg d).2⟩⟩
  · rw [getElem?_modify_at, if_pos rfl, he]
    rfl
  · rw [getElem?_modify_at, if_neg (by omega)]
    simp
  · rw [getElem?_modify_at, if_pos rfl, List.getElem?_append_left hlt, hd]
    rfl

/-- C8: create and mkdir, called with a mode that names no other kind of
file, return -ENOSPC exactly when the inode allocation fails; then nothing
has changed (link count and time stamps of the parent, the entry); otherwise
they return 0, the new inode is bound to the entry, and the modify and change
time stamps of the parent are the current time. -/
theorem nospace_iff_allocation_fails (env : alloc_env) (now : Int) (s : fs)
    (dir de cmode mode : Nat) (excl : Bool) (d : inode) (e : dentry)
    (hd : s.inodes[dir]? = some d) (he : s.dentries[de]? = some e)
    (hcm : (cmode ||| S_IFREG) &&& S_IFMT = S_IFREG)
    (hm : (mode ||| S_IFDIR) &&& S_IFMT = S_IFDIR) :
    (∃ r t, bhfs_create env now s dir de cmode excl = some (r, t) ∧
      (r = -ENOSPC ↔ env.new_inode = none) ∧
      (env.new_inode = none → t = s) ∧
      (env.new_inode ≠ none → r = 0 ∧
        (∃ e1, t.dentries[de]? = some e1 ∧ e1.d_inode = some s.inodes.length) ∧
        (∃ c, t.inodes[s.inodes.length]? = some c ∧ S_ISREG c.i_mode = true) ∧
        (∃ d1, t.inodes[dir]? = some d1 ∧ d1.i_mtime = now ∧ d1.i_ctime = now))) ∧
    (∃ r t, bhfs_mkdir env now s dir de mode = some (r, t) ∧
      (r = -ENOSPC ↔ env.new_inode = none) ∧
      (env.new_inode = none → t = s) ∧
      (env.new_inode ≠ none → r = 0 ∧
        (∃ e1, t.dentries[de]? = some e1 ∧ e1.d_inode = some s.inodes.length) ∧
        (∃ c, t.inodes[s.inodes.length]? = some c ∧ S_ISDIR c.i_mode = true) ∧
        (∃ d1, t.inodes[dir]? = some d1 ∧ d1.i_mtime = now ∧ d1.i_ctime = now))) := by
  constructor
  · obtain ⟨r, t, h⟩ := mknod_returns env now s dir de (cmode ||| S_IFREG) 0 (Or.inl hcm)
    refine ⟨r, t, h, ?_⟩
    rcases create_cases env now s dir de cmode excl r t h with
      ⟨h1, h2, h3⟩ | ⟨i0, c, h1, h2, h3, -, -, -, h7⟩
    · exact ⟨⟨fun _ => h1, fun _ => h2⟩, fun _ => h3, fun hne => absurd h1 hne⟩
    · have hne : env.new_inode ≠ none := by rw [h1]; simp
      refine ⟨⟨fun hr => ?_, fun hn => absurd hn hne⟩, fun hn => absurd hn hne, fun _ => ?_⟩
      · rw [h2] at hr
        exact absurd hr (by decide)
      · obtain ⟨a1, a2, a3⟩ := bound_and_touched (touch_dir now) now s dir de c d e hd he
          (fun _ => ⟨rfl, rfl⟩)
        rw [h7]
        exact ⟨h2, a1, ⟨c, a2, h3⟩, a3⟩
  · have hex : ∃ r t, bhfs_mkdir env now s dir de mode = some (r, t) := by
      obtain ⟨r, t, h⟩ := mknod_returns env now s dir de (mode ||| S_IFDIR) 0 (Or.inr hm)
      unfold bhfs_mkdir
      rw [h]
      simp only []
      split <;> exact ⟨_, _, rfl⟩
    obtain ⟨r, t, h⟩ := hex
    refine ⟨r, t, h, ?_⟩
    rcases mkdir_cases env now s dir de mode r t h with
      ⟨h1, h2, h3⟩ | ⟨i0, c, h1, h2, h3, -, -, -, h7⟩
    · exact ⟨⟨fun _ => h1, fun _ => h2⟩, fun _ => h3, fun hne => absurd h1 hne⟩
    · have hne : env.new_inode ≠ none := by rw [h1]; simp
      refine ⟨⟨fun hr => ?_, fun hn => absurd hn hne⟩, fun hn => absurd hn hne, fun _ => ?_⟩
      · rw [h2] at hr
        exact absurd hr (by decide)
      · obtain ⟨a1, a2, a3⟩ := bound_and_touched (fun x => inc_nlink (touch_dir now x)) now s
          dir de c d e hd he (fun _ => ⟨rfl, rfl⟩)
        rw [h7]
        simp only [modify_at_twice]
        exact ⟨h2, a1, ⟨c, a2, h3⟩, a3⟩

theorem nospace_iff_allocation_fails_witness :
    (d_alloc fs_root 0).inodes[0]? = some (dir_inode 1 0o040000 2 10 10) ∧
    (d_alloc fs_root 0).dentries[1]? = some ⟨some 0, none, 1⟩ ∧
    (0o100644 ||| S_IFREG) &&& S_IFMT = S_IFREG ∧
    (0o755 ||| S_IFDIR) &&& S_IFMT = S_IFDIR ∧
    (∃ r t, bhfs_create (env_fail 2 20) 21 (d_alloc fs_root 0) 0 1 0o100644 false =
        some (r, t) ∧
      (r = -ENOSPC ↔ (env_fail 2 20).new_inode = none) ∧
      ((env_fail 2 20).new_inode = none → t = d_alloc fs_root 0) ∧
      ((env_fail 2 20).new_inode ≠ none → r = 0 ∧
        (∃ e1, t.dentries[1]? = some e1 ∧
          e1.d_inode = some (d_alloc fs_root 0).inodes.length) ∧
        (∃ c, t.inodes[(d_alloc fs_root 0).inodes.length]? = some c ∧
          S_ISREG c.i_mode = true) ∧
        (∃ d1, t.inodes[0]? = some d1 ∧ d1.i_mtime = 21 ∧ d1.i_ctime = 21))) ∧
    (∃ r t, bhfs_mkdir (env_fail 2 20) 21 (d_alloc fs_root 0) 0 1 0o755 = some (r, t) ∧
      (r = -ENOSPC ↔ (env_fail 2 20).new_inode = none) ∧
      ((env_fail 2 20).new_inode = none → t = d_alloc fs_root 0) ∧
      ((env_fail 2 20).new_inode ≠ none → r = 0 ∧
        (∃ e1, t.dentries[1]? = some e1 ∧
          e1.d_inode = some (d_alloc fs_root 0).inodes.length) ∧
        (∃ c, t.inodes[(d_alloc fs_root 0).inodes.length]? = some c ∧
          S_ISDIR c.i_mode = true) ∧
        (∃ d1, t.inodes[0]? = some d1 ∧ d1.i_mtime = 21 ∧ d1.i_ctime = 21))) :=
  ⟨by decide, by decide, by decide, by decide,
    nospace_iff_allocation_fails (env_fail 2 20) 21 (d_alloc fs_root 0) 0 1 0o100644 0o755
      false (dir_inode 1 0o040000 2 10 10) ⟨some 0, none, 1⟩ (by decide) (by decide)
      (by decide) (by decide)⟩

/-! ## The transition system: shape of a step -/

/-- A read changes at most the access time of the inode. -/
theorem read_inode_meta (P : Nat) (env : Nat → chunk_env) (atime : Int) (iocb : kiocb)
    (iter : iov_iter) (ino : inode) (r : read_result)
    (h : bhfs_read_iter P env atime iocb iter ino = some r) :
    r.inode = ino ∨ r.inode = { ino with i_atime := atime } := by
  unfold bhfs_read_iter at h
  split at h
  · simp only [Option.some.injEq] at h
    rw [← h]
    exact Or.inl rfl
  · simp only [] at h
    split at h
    · simp only [Option.some.injEq] at h
      rw [← h]
      exact Or.inl rfl
    · split at h
      · exact absurd h (by simp)
      · split at h
        · simp only [Option.some.injEq] at h
          rw [← h]
          exact Or.inr rfl
        · simp only [Option.some.injEq] at h
          rw [← h]
          exact Or.inl rfl

/-- A write leaves link count and operation table of the inode alone. -/
theorem write_inode_meta (env : write_env) (iocb : kiocb) (src : iov_iter) (ino : inode) :
    (bhfs_write_iter env iocb src ino).inode.i_nlink = ino.i_nlink ∧
    (bhfs_write_iter env iocb src ino).inode.i_op = ino.i_op := by
  unfold bhfs_write_iter
  simp only []
  split
  · split
    · split <;> exact ⟨rfl, rfl⟩
    · exact ⟨rfl, rfl⟩
  · exact ⟨rfl, rfl⟩

/-- If the write checks accept a length only when the end offset does not
exceed `M`, a write keeps the size at or below `M`. -/
theorem write_size_bound (env : write_env) (iocb : kiocb) (src : iov_iter) (ino : inode)
    (M : Int) (hM : M ≤ LOFF_MAX)
    (hc : 0 < env.chk_ret → LOFF_MIN ≤ env.chk_pos ∧ env.chk_pos + env.chk_ret ≤ M)
    (h : ino.i_size ≤ M) : (bhfs_write_iter env iocb src ino).inode.i_size ≤ M := by
  unfold bhfs_write_iter
  simp only []
  split
  · rename_i hpos
    have hc1 := hc hpos
    have hM1 : M ≤ 9223372036854775807 := hM
    have hc2 : -9223372036854775808 ≤ env.chk_pos := hc1.1
    split
    · split
      · simp only []
        rw [loff_wrap_id _ (by omega) (by unfold LOFF_MAX; omega)]
        exact hc1.2
      · exact h
    · exact h
  · exact h

/-- The three shapes of a dispatched call: the attributes of one inode
change but not its kind, link count or operations; or a negative entry is
added; or a new inode and an entry bound to it are added while the directory
inode gains `k` links, with `k = 1` exactly for a new directory. -/
theorem apply_op_cases (s : fs) (op : vfs_op) (t : fs) (hc : op_contract s op)
    (h : apply_op s op = some t) :
    (∃ file i j, s.inodes[file]? = some i ∧ j.i_mode = i.i_mode ∧ j.i_nlink = i.i_nlink ∧
      j.i_op = i.i_op ∧ i.i_size ≤ j.i_size ∧
      (s.sb.s_maxbytes ≤ LOFF_MAX → i.i_size ≤ s.sb.s_maxbytes →
        j.i_size ≤ s.sb.s_maxbytes) ∧
      t = { s with inodes := modify_at (fun _ => j) s.inodes file }) ∨
    (∃ dir, dir < s.inodes.length ∧ t = d_alloc s dir) ∨
    (∃ dir d c k g, s.inodes[dir]? = some d ∧ d.i_op = .bhfs_dir_inode_operations ∧
      c.i_size = 0 ∧
      ((S_ISREG c.i_mode = true ∧ c.i_nlink = 1 ∧ c.i_op = .bhfs_file_inode_operations ∧
          k = 0) ∨
       (S_ISDIR c.i_mode = true ∧ c.i_nlink = 2 ∧ c.i_op = .bhfs_dir_inode_operations ∧
          k = 1)) ∧
      (∀ x : inode, (g x).i_mode = x.i_mode ∧ (g x).i_size = x.i_size ∧
        (g x).i_op = x.i_op ∧
        (g x).i_nlink = if k = 0 then x.i_nlink else (x.i_nlink + 1) % 4294967296) ∧
      t = { sb := s.sb, inodes := modify_at g s.inodes dir ++ [c],
            dentries := s.dentries ++
              [{ d_parent := some dir, d_inode := some s.inodes.length, d_count := 2 }] }) := by
  have hlen : ∀ (dir : Nat) (d : inode), s.inodes[dir]? = some d → dir < s.inodes.length := by
    intro dir d hd
    rcases Nat.lt_or_ge dir s.inodes.length with h1 | h1
    · exact h1
    · rw [List.getElem?_eq_none h1] at hd
      exact absurd hd (by simp)
  cases op with
  | mkdir dir mode env now =>
    simp only [apply_op] at h
    cases hd : s.inodes[dir]? with
    | none => rw [hd] at h; exact absurd h (by simp)
    | some d =>
      rw [hd] at h
      simp only [] at h
      by_cases hop : d.i_op = .bhfs_dir_inode_operations
      · rw [if_pos hop] at h
        cases hr : bhfs_mkdir env now (d_alloc s dir) dir s.dentries.length mode with
        | none => rw [hr] at h; exact absurd h (by simp)
        | some rt =>
          obtain ⟨r, u⟩ := rt
          rw [hr] at h
          simp only [Option.map_some', Option.some.injEq] at h
          subst h
          rcases mkdir_cases _ _ _ _ _ _ _ _ hr with
            ⟨-, -, h3⟩ | ⟨i0, c, h1, -, h3, h4, h5, h6, h7⟩
          · exact Or.inr (Or.inl ⟨dir, hlen dir d hd, h3⟩)
          · have hf : i0.i_nlink = 1 ∧ i0.i_size = 0 := by
              have := hc
              simp only [op_contract, fresh_inode, h1] at this
              exact this
            refine Or.inr (Or.inr ⟨dir, d, c, 1, fun x => inc_nlink (touch_dir now x), hd, hop,
              by rw [h5, hf.2], Or.inr ⟨h3, by rw [h4, hf.1], h6, rfl⟩,
              fun x => ⟨rfl, rfl, rfl, rfl⟩, ?_⟩)
            rw [h7, modify_at_twice]
            simp only [d_alloc, modify_at_append_last,
              modify_at_append_left _ _ _ _ (hlen dir d hd), bind_entry]
      · rw [if_neg hop] at h
        exact absurd h (by simp)
  | create dir mode excl env now =>
    simp only [apply_op] at h
    cases hd : s.inodes[dir]? with
    | none => rw [hd] at h; exact absurd h (by simp)
    | some d =>
      rw [hd] at h
      simp only [] at h
      by_cases hop : d.i_op = .bhfs_dir_inode_operations
      · rw [if_pos hop] at h
        cases hr : bhfs_create env now (d_alloc s dir) dir s.dentries.length mode excl with
        | none => rw [hr] at h; exact absurd h (by simp)
        | some rt =>
          obtain ⟨r, u⟩ := rt
          rw [hr] at h
          simp only [Option.map_some', Option.some.injEq] at h
          subst h
          rcases create_cases _ _ _ _ _ _ _ _ _ hr with
            ⟨-, -, h3⟩ | ⟨i0, c, h1, -, h3, h4, h5, h6, h7⟩
          · exact Or.inr (Or.inl ⟨dir, hlen dir d hd, h3⟩)
          · have hf : i0.i_nlink = 1 ∧ i0.i_size = 0 := by
              have := hc
              simp only [op_contract, fresh_inode, h1] at this
              exact this
            refine Or.inr (Or.inr ⟨dir, d, c, 0, touch_dir now, hd, hop,
              by rw [h5, hf.2], Or.inl ⟨h3, by rw [h4, hf.1], h6, rfl⟩,
              fun x => ⟨rfl, rfl, rfl, rfl⟩, ?_⟩)
            rw [h7]
            simp only [d_alloc, modify_at_append_last,
              modify_at_append_left _ _ _ _ (hlen dir d hd), bind_entry]
      · rw [if_neg hop] at h
        exact absurd h (by simp)
  | read file P env atime pos dst =>
    simp only [apply_op] at h
    cases hd : s.inodes[file]? with
    | none => rw [hd] at h; exact absurd h (by simp)
    | some i =>
      rw [hd] at h
      simp only [] at h
      by_cases hop : i.i_fop = .bhfs_file_operations
      · rw [if_pos hop] at h
        cases hr : bhfs_read_iter P env atime ⟨pos⟩ dst i with
        | none => rw [hr] at h; exact absurd h (by simp)
        | some r =>
          rw [hr] at h
          simp only [Option.map_some', Option.some.injEq] at h
          refine Or.inl ⟨file, i, r.inode, hd, ?_, ?_, ?_, ?_, ?_, h.symm⟩
          all_goals rcases read_inode_meta _ _ _ _ _ _ _ hr with e | e <;> rw [e]
          all_goals first | exact le_refl _ | exact fun _ hle => hle
      · rw [if_neg hop] at h
        exact absurd h (by simp)
  | write file pos src env =>
    simp only [apply_op] at h
    cases hd : s.inodes[file]? with
    | none => rw [hd] at h; exact absurd h (by simp)
    | some i =>
      rw [hd] at h
      simp only [] at h
      by_cases hop : i.i_fop = .bhfs_file_operations
      · rw [if_pos hop] at h
        simp only [Option.some.injEq] at h
        exact Or.inl ⟨file, i, _, hd, write_mode _ _ _ _, (write_inode_meta _ _ _ _).1,
          (write_inode_meta _ _ _ _).2, write_size_mono _ _ _ _,
          fun hM hle => write_size_bound _ _ _ _ _ hM hc hle, h.symm⟩
      · rw [if_neg hop] at h
        exact absurd h (by simp)

/-! ## The invariant -/

theorem lt_of_getElem? {α : Type} (l : List α) (p : Nat) (a : α) (h : l[p]? = some a) :
    p < l.length := by
  rcases Nat.lt_or_ge p l.length with h1 | h1
  · exact h1
  · rw [List.getElem?_eq_none h1] at h
    exact absurd h (by simp)

theorem not_reg_of_dir (m : Nat) (h : S_ISDIR m = true) : S_ISREG m = false := by
  rw [isdir_iff] at h
  unfold S_ISREG
  rw [h]
  decide

/-- Subdirectory counts only depend on the kinds of the inodes the entries
point to. -/
theorem countP_subdir_congr (ds : List dentry) (ins ins1 : List inode) (p : Nat)
    (hp : ∀ d ∈ ds, ∀ c, d.d_inode = some c → c < ins.length)
    (hm : ∀ (c : Nat) (i : inode), ins[c]? = some i →
      ∃ j : inode, ins1[c]? = some j ∧ j.i_mode = i.i_mode) :
    ds.countP (is_subdir_of ins1 p) = ds.countP (is_subdir_of ins p) := by
  apply List.countP_congr
  intro d hd
  have : is_subdir_of ins1 p d = is_subdir_of ins p d := by
    unfold is_subdir_of
    cases hc : d.d_inode with
    | none => rfl
    | some c =>
      have hlt := hp d hd c hc
      obtain ⟨j, hj, hmode⟩ := hm c _ (List.getElem?_eq_getElem hlt)
      simp only [hj, List.getElem?_eq_getElem hlt, hmode]
  rw [this]

/-- No entry lies in a directory that is not in the heap. -/
theorem countP_subdir_fresh (ds : List dentry) (ins1 : List inode) (n : Nat)
    (hp : ∀ d ∈ ds, ∀ p, d.d_parent = some p → p < n) :
    ds.countP (is_subdir_of ins1 n) = 0 := by
  rw [List.countP_eq_zero]
  intro d hd
  unfold is_subdir_of
  cases hq : d.d_parent with
  | none => simp
  | some q =>
    have := hp d hd q hq
    have hne : q ≠ n := by omega
    simp [hne]

/-- Looking up an inode after a new inode was appended and the directory
inode modified. -/
theorem lookup_step (g : inode → inode) (ins : List inode) (dir : Nat) (c : inode) (p : Nat)
    (j : inode) (h : (modify_at g ins dir ++ [c])[p]? = some j) :
    (∃ i, ins[p]? = some i ∧ j = if dir = p then g i else i) ∨ (p = ins.length ∧ j = c) := by
  rcases Nat.lt_or_ge p ins.length with h1 | h1
  · rw [List.getElem?_append_left (by rw [length_modify_at]; exact h1),
      getElem?_modify_at] at h
    left
    refine ⟨ins[p], List.getElem?_eq_getElem h1, ?_⟩
    rw [List.getElem?_eq_getElem h1] at h
    by_cases hdp : dir = p
    · rw [if_pos hdp] at h ⊢
      simpa using h.symm
    · rw [if_neg hdp] at h ⊢
      simpa using h.symm
  · rw [List.getElem?_append_right (by rw [length_modify_at]; exact h1), length_modify_at] at h
    right
    have hp : p = ins.length := by
      rcases Nat.eq_or_lt_of_le h1 with h2 | h2
      · exact h2.symm
      · rw [List.getElem?_eq_none (by simp; omega)] at h
        exact absurd h (by simp)
    refine ⟨hp, ?_⟩
    rw [hp] at h
    simpa using h.symm

/-- The invariant survives a change of the attributes of one inode that
keeps kind, link count and operations and keeps the size in range. -/
theorem inv_attr (s : fs) (file : Nat) (i j : inode) (hinv : fs_inv s)
    (hi : s.inodes[file]? = some i) (hmode : j.i_mode = i.i_mode)
    (hlink : j.i_nlink = i.i_nlink) (hop : j.i_op = i.i_op) (hmono : i.i_size ≤ j.i_size)
    (hsize : s.sb.s_maxbytes ≤ LOFF_MAX → i.i_size ≤ s.sb.s_maxbytes →
      j.i_size ≤ s.sb.s_maxbytes) :
    fs_inv { s with inodes := modify_at (fun _ => j) s.inodes file } := by
  obtain ⟨hl, hp, ho, hs⟩ := hinv
  have hlook : ∀ (p : Nat) (k : inode), (modify_at (fun _ => j) s.inodes file)[p]? = some k →
      ∃ i0 : inode, s.inodes[p]? = some i0 ∧ k.i_mode = i0.i_mode ∧ k.i_nlink = i0.i_nlink ∧
        k.i_op = i0.i_op ∧ (0 ≤ i0.i_size → i0.i_size ≤ s.sb.s_maxbytes →
          0 ≤ k.i_size ∧ k.i_size ≤ s.sb.s_maxbytes) := by
    intro p k hk
    rw [getElem?_modify_at] at hk
    by_cases hfp : file = p
    · subst hfp
      rw [if_pos rfl, hi] at hk
      simp only [Option.map_some', Option.some.injEq] at hk
      subst hk
      exact ⟨i, hi, hmode, hlink, hop, fun h0 h1 => ⟨le_trans h0 hmono, hsize hs.2.1 h1⟩⟩
    · rw [if_neg hfp] at hk
      exact ⟨k, hk, rfl, rfl, rfl, fun h0 h1 => ⟨h0, h1⟩⟩
  have hcnt : ∀ p, nr_subdirs { s with inodes := modify_at (fun _ => j) s.inodes file } p =
      nr_subdirs s p := by
    intro p
    unfold nr_subdirs
    apply countP_subdir_congr _ _ _ _ (fun d hd => (hp d hd).1)
    intro c i0 hc
    rw [getElem?_modify_at]
    by_cases hfc : file = c
    · subst hfc
      rw [if_pos rfl, hc]
      rw [hi] at hc
      simp only [Option.some.injEq] at hc
      subst hc
      exact ⟨j, rfl, hmode⟩
    · rw [if_neg hfc]
      exact ⟨i0, hc, rfl⟩
  refine ⟨?_, ?_, ?_, ?_⟩
  · intro p k hk
    obtain ⟨i0, h0, hm0, hn0, -, -⟩ := hlook p k hk
    rw [hcnt, hm0, hn0]
    exact hl p i0 h0
  · intro d hd
    simp only [length_modify_at]
    exact hp d hd
  · intro p k hk
    obtain ⟨i0, h0, hm0, -, ho0, -⟩ := hlook p k hk
    rw [hm0, ho0]
    exact ho p i0 h0
  · refine ⟨hs.1, hs.2.1, ?_⟩
    intro p k hk
    obtain ⟨i0, h0, -, -, -, hz⟩ := hlook p k hk
    exact hz (hs.2.2 p i0 h0).1 (hs.2.2 p i0 h0).2

/-- The invariant survives the addition of a negative entry. -/
theorem inv_d_alloc (s : fs) (dir : Nat) (hinv : fs_inv s) (hdir : dir < s.inodes.length) :
    fs_inv (d_alloc s dir) := by
  obtain ⟨hl, hp, ho, hs⟩ := hinv
  refine ⟨?_, ?_, ho, hs⟩
  · intro p i hi
    have : nr_subdirs (d_alloc s dir) p = nr_subdirs s p := by
      simp [nr_subdirs, d_alloc, List.countP_append, List.countP_singleton, is_subdir_of]
    rw [this]
    exact hl p i hi
  · intro d hd
    simp only [d_alloc, List.mem_append, List.mem_singleton] at hd
    rcases hd with hd | hd
    · exact hp d hd
    · subst hd
      exact ⟨fun c hc => absurd hc (by simp), fun p hq => by
        simp only [Option.some.injEq] at hq
        subst hq
        exact hdir⟩

/-- The invariant survives the addition of a new inode bound to a new entry
of the directory `dir`, when the directory gains one link exactly if the new
inode is a directory. -/
theorem inv_new (s : fs) (dir : Nat) (d c : inode) (k : Nat) (g : inode → inode)
    (hinv : fs_inv s) (hd : s.inodes[dir]? = some d)
    (hdop : d.i_op = .bhfs_dir_inode_operations) (hc0 : c.i_size = 0)
    (hkind : (S_ISREG c.i_mode = true ∧ c.i_nlink = 1 ∧
        c.i_op = .bhfs_file_inode_operations ∧ k = 0) ∨
      (S_ISDIR c.i_mode = true ∧ c.i_nlink = 2 ∧ c.i_op = .bhfs_dir_inode_operations ∧ k = 1))
    (hg : ∀ x : inode, (g x).i_mode = x.i_mode ∧ (g x).i_size = x.i_size ∧
      (g x).i_op = x.i_op ∧
      (g x).i_nlink = if k = 0 then x.i_nlink else (x.i_nlink + 1) % 4294967296) :
    fs_inv { sb := s.sb, inodes := modify_at g s.inodes dir ++ [c],
             dentries := s.dentries ++
               [{ d_parent := some dir, d_inode := some s.inodes.length, d_count := 2 }] } := by
  obtain ⟨hl, hp, ho, hs⟩ := hinv
  have hdir : dir < s.inodes.length := lt_of_getElem? _ _ _ hd
  have hddir : S_ISDIR d.i_mode = true := ho dir d hd hdop
  have hk : k = if S_ISDIR c.i_mode = true then 1 else 0 := by
    rcases hkind with ⟨h1, -, -, h4⟩ | ⟨h1, -, -, h4⟩
    · have := not_reg_of_dir c.i_mode
      by_cases hcd : S_ISDIR c.i_mode = true
      · rw [this hcd] at h1
        exact absurd h1 (by simp)
      · rw [if_neg hcd]
        exact h4
    · rw [if_pos h1]
      exact h4
  have hlast : (modify_at g s.inodes dir ++ [c])[s.inodes.length]? = some c := by
    rw [List.getElem?_append_right (by rw [length_modify_at]), length_modify_at]
    simp
  have hold : ∀ p, s.dentries.countP (is_subdir_of (modify_at g s.inodes dir ++ [c]) p) =
      nr_subdirs s p := by
    intro p
    unfold nr_subdirs
    apply countP_subdir_congr _ _ _ _ (fun e he => (hp e he).1)
    intro q i hq
    have hql := lt_of_getElem? _ _ _ hq
    rw [List.getElem?_append_left (by rw [length_modify_at]; exact hql), getElem?_modify_at]
    by_cases hdq : dir = q
    · rw [if_pos hdq, hq]
      exact ⟨g i, rfl, (hg i).1⟩
    · rw [if_neg hdq]
      exact ⟨i, hq, rfl⟩
  have hcnt : ∀ p, nr_subdirs
      { sb := s.sb, inodes := modify_at g s.inodes dir ++ [c],
        dentries := s.dentries ++
          [{ d_parent := some dir, d_inode := some s.inodes.length, d_count := 2 }] } p =
      nr_subdirs s p + if dir = p ∧ S_ISDIR c.i_mode = true then 1 else 0 := by
    intro p
    have hnew : is_subdir_of (modify_at g s.inodes dir ++ [c]) p
        { d_parent := some dir, d_inode := some s.inodes.length, d_count := 2 } =
        decide (dir = p ∧ S_ISDIR c.i_mode = true) := by
      simp only [is_subdir_of, hlast]
      by_cases hdp : dir = p
      · simp [hdp]
      · simp [hdp]
    unfold nr_subdirs
    simp only [List.countP_append, List.countP_singleton, hnew, decide_eq_true_eq]
    rw [hold]
    rfl
  refine ⟨?_, ?_, ?_, ?_⟩
  · intro p j hj
    simp only [] at hj
    rw [hcnt]
    rcases lookup_step g s.inodes dir c p j hj with ⟨i, hi, hji⟩ | ⟨hpl, hjc⟩
    · by_cases hdp : dir = p
      · subst hdp
        rw [hi] at hd
        simp only [Option.some.injEq] at hd
        subst hd
        rw [if_pos rfl] at hji
        subst hji
        rw [(hg i).1, (hg i).2.2.2]
        constructor
        · intro hdd
          rw [(hl dir i hi).1 hdd]
          by_cases hcd : S_ISDIR c.i_mode = true
          · have hk1 : k = 1 := by rw [hk, if_pos hcd]
            rw [hk1, if_neg (by decide), if_pos ⟨rfl, hcd⟩]
            omega
          · have hk0 : k = 0 := by rw [hk, if_neg hcd]
            rw [hk0, if_pos rfl, if_neg (fun h => hcd h.2)]
            omega
        · intro hr
          rw [not_reg_of_dir _ hddir] at hr
          exact absurd hr (by simp)
      · rw [if_neg hdp] at hji
        subst hji
        rw [if_neg (fun h => hdp h.1)]
        exact hl p j hi
    · subst hjc
      subst hpl
      rw [if_neg (fun h => by omega)]
      have hz : nr_subdirs s s.inodes.length = 0 := by
        unfold nr_subdirs
        exact countP_subdir_fresh _ _ _ (fun e he => (hp e he).2)
      rw [hz]
      rcases hkind with ⟨h1, h2, -, -⟩ | ⟨h1, h2, -, -⟩
      · constructor
        · intro hcd
          rw [not_reg_of_dir _ hcd] at h1
          exact absurd h1 (by simp)
        · exact fun _ => h2
      · constructor
        · intro _
          rw [h2]
        · intro hr
          rw [not_reg_of_dir _ h1] at hr
          exact absurd hr (by simp)
  · intro e he
    simp only [List.mem_append, List.mem_singleton] at he
    simp only [List.length_append, length_modify_at, List.length_singleton]
    rcases he with he | he
    · exact ⟨fun q hq => Nat.lt_succ_of_lt ((hp e he).1 q hq),
        fun q hq => Nat.lt_succ_of_lt ((hp e he).2 q hq)⟩
    · subst he
      constructor
      · intro q hq
        simp only [Option.some.injEq] at hq
        omega
      · intro q hq
        simp only [Option.some.injEq] at hq
        omega
  · intro p j hj hjop
    simp only [] at hj
    rcases lookup_step g s.inodes dir c p j hj with ⟨i, hi, hji⟩ | ⟨-, hjc⟩
    · by_cases hdp : dir = p
      · rw [if_pos hdp] at hji
        subst hji
        rw [(hg i).1]
        rw [(hg i).2.2.1] at hjop
        exact ho p i hi hjop
      · rw [if_neg hdp] at hji
        subst hji
        exact ho p j hi hjop
    · subst hjc
      rcases hkind with ⟨-, -, h3, -⟩ | ⟨h1, -, -, -⟩
      · rw [h3] at hjop
        exact absurd hjop (by decide)
      · exact h1
  · refine ⟨hs.1, hs.2.1, ?_⟩
    intro p j hj
    simp only [] at hj ⊢
    rcases lookup_step g s.inodes dir c p j hj with ⟨i, hi, hji⟩ | ⟨-, hjc⟩
    · by_cases hdp : dir = p
      · rw [if_pos hdp] at hji
        subst hji
        rw [(hg i).2.1]
        exact hs.2.2 p i hi
      · rw [if_neg hdp] at hji
        subst hji
        exact hs.2.2 p j hi
    · subst hjc
      rw [hc0]
      exact ⟨le_refl _, hs.1⟩

/-- A successful mount establishes the invariant. -/
theorem inv_mount (M : Int) (P sh : Nat) (env : alloc_env) (ok : Bool) (s : fs)
    (hM0 : 0 ≤ M) (hM : M ≤ LOFF_MAX) (hf : fresh_inode env)
    (h : bhfs_fill_super M P sh env ok fs_blank = some (0, s)) : fs_inv s := by
  unfold bhfs_fill_super at h
  simp only [] at h
  cases hg : bhfs_get_inode env
      { fs_blank with sb := { fs_blank.sb with s_maxbytes := M, s_blocksize := P,
                                               s_blocksize_bits := sh, s_magic := BHFS_MAGIC,
                                               s_time_gran := 1 } } none S_IFDIR 0 with
  | none =>
    rw [hg] at h
    exact absurd h (by simp)
  | some pt =>
    obtain ⟨p, u⟩ := pt
    rw [hg] at h
    simp only [] at h
    rcases get_inode_cases _ _ _ _ _ _ _ hg with ⟨-, h2, -⟩ | ⟨i0, c, h1, h2, h3, h4⟩
    · subst h2
      simp only [d_make_root, if_true] at h
      exact absurd h (by simp [ENOMEM])
    · subst h2
      subst h3
      cases ok with
      | false =>
        simp only [d_make_root, if_true, Bool.false_eq_true, if_false] at h
        exact absurd h (by simp [ENOMEM])
      | true =>
        simp only [d_make_root, if_true] at h
        rw [if_neg (by simp)] at h
        simp only [Option.some.injEq, Prod.mk.injEq, true_and] at h
        subst h
        obtain ⟨b1, b2, -, -, -, b6⟩ := h4
        have hfr : i0.i_nlink = 1 ∧ i0.i_size = 0 := by
          have := hf
          simp only [fresh_inode, h1] at this
          exact this
        have hcd : S_ISDIR c.i_mode = true := by
          rw [isdir_iff, b1]
          decide
        have hcl : c.i_nlink = 2 := by
          rcases b6 with b6 | b6
          · exact absurd b6.1 (by decide)
          · rw [b6.2.1, hfr.1]
        have hlook : ∀ (q : Nat) (j : inode), ([c] : List inode)[q]? = some j → q = 0 ∧ j = c := by
          intro q j hq
          cases q with
          | zero => exact ⟨rfl, by simpa using hq.symm⟩
          | succ n => simp at hq
        refine ⟨?_, ?_, ?_, ?_⟩
        · intro q j hq
          obtain ⟨hq0, hjc⟩ := hlook q j hq
          subst hjc
          subst hq0
          constructor
          · intro _
            rw [hcl]
            simp [nr_subdirs, fs_blank, is_subdir_of, List.countP_cons]
          · intro hr
            rw [not_reg_of_dir _ hcd] at hr
            exact absurd hr (by simp)
        · intro e he
          simp only [fs_blank, List.nil_append, List.mem_singleton] at he
          subst he
          constructor
          · intro q hq
            simp only [Option.some.injEq] at hq
            subst hq
            simp [fs_blank]
          · intro q hq
            simp at hq
        · intro q j hq _
          obtain ⟨-, hjc⟩ := hlook q j hq
          rw [hjc]
          exact hcd
        · refine ⟨hM0, hM, ?_⟩
          intro q j hq
          obtain ⟨-, hjc⟩ := hlook q j hq
          rw [hjc, b2, hfr.2]
          exact ⟨le_refl _, hM0⟩

/-- Every state of a mounted filesystem satisfies the invariant. -/
theorem reachable_inv (s : fs) (h : Reachable s) : fs_inv s := by
  induction h with
  | mount M P sh env ok s hM0 hM hf hs => exact inv_mount M P sh env ok s hM0 hM hf hs
  | step s op t _ hc ht ih =>
    rcases apply_op_cases s op t hc ht with
      ⟨file, i, j, h1, h2, h3, h4, h5, h6, h7⟩ | ⟨dir, h1, h2⟩ |
      ⟨dir, d, c, k, g, h1, h2, h3, h4, h5, h6⟩
    · rw [h7]
      exact inv_attr s file i j ih h1 h2 h3 h4 h5 h6
    · rw [h2]
      exact inv_d_alloc s dir ih h1
    · rw [h6]
      exact inv_new s dir d c k g ih h1 h2 h3 h4 h5

/-! ## Claims about reachable states -/

/-- A mount, mkdir of `d`, create of `d/f` and a write to it, step by step. -/
theorem reachable_fs_written : Reachable fs_written := by
  have h0 : Reachable fs_root :=
    Reachable.mount LOFF_MAX 4096 12 (env_at 1 10) true fs_root (by decide) (le_refl _)
      (by decide) (by decide)
  have h1 : Reachable fs_d :=
    Reachable.step fs_root (.mkdir 0 0o755 (env_at 2 20) 21) fs_d h0 (by decide) (by decide)
  have h2 : Reachable fs_d_f :=
    Reachable.step fs_d (.create 1 0o644 false (env_at 3 30) 31) fs_d_f h1 (by decide)
      (by decide)
  exact Reachable.step fs_d_f
    (.write 2 100 (src_of [1, 2, 3, 4, 5]) (write_ok 100 [1, 2, 3, 4, 5] 40).env) fs_written h2
    (by decide) (by decide)

/-- C7: in every state reached from a mount by create, mkdir, read and write
calls, where the write checks accept a length only if the end offset does not
exceed `s_maxbytes`, the size of each regular inode is at least 0 and at most
`s_maxbytes`. -/
theorem regular_size_within_maxbytes (s : fs) (h : Reachable s) :
    ∀ (p : Nat) (i : inode), s.inodes[p]? = some i → S_ISREG i.i_mode = true →
      0 ≤ i.i_size ∧ i.i_size ≤ s.sb.s_maxbytes :=
  fun p i hi _ => (reachable_inv s h).2.2.2.2.2 p i hi

theorem regular_size_within_maxbytes_witness :
    Reachable fs_written ∧
    ∀ (p : Nat) (i : inode), fs_written.inodes[p]? = some i → S_ISREG i.i_mode = true →
      0 ≤ i.i_size ∧ i.i_size ≤ fs_written.sb.s_maxbytes :=
  ⟨reachable_fs_written, regular_size_within_maxbytes fs_written reachable_fs_written⟩

/-- C9, as stated, fails: the state reached by a mount and 4294967294 calls
of mkdir in the root has a root directory with 4294967294 child
subdirectories and link count 0. -/
theorem link_count_wraps_to_zero :
    Reachable (many_dirs 4294967294) ∧
    (many_dirs 4294967294).inodes[0]? = some (many_root 4294967294) ∧
    S_ISDIR (many_root 4294967294).i_mode = true ∧
    nr_subdirs (many_dirs 4294967294) 0 = 4294967294 ∧
    (many_root 4294967294).i_nlink = 0 ∧
    (many_root 4294967294).i_nlink ≠ 2 + nr_subdirs (many_dirs 4294967294) 0 :=
  ⟨reachable_many_dirs 4294967294, many_dirs_root 4294967294, by decide,
    nr_subdirs_many_dirs 4294967294, by decide, by
      rw [nr_subdirs_many_dirs]
      decide⟩

/-- C9 (amended): in every state reached from a successful mount by create
and mkdir calls that succeed or fail (and by read and write calls), the link
count of each directory inode is 2 plus the number of its child
subdirectories modulo 2^32, that is exactly 2 plus that number as long as
this is below 2^32, and the link count of each regular file is 1. -/
theorem link_count_convention (s : fs) (h : Reachable s) :
    ∀ (p : Nat) (i : inode), s.inodes[p]? = some i →
      (S_ISDIR i.i_mode = true →
        i.i_nlink = (2 + nr_subdirs s p) % 4294967296 ∧
        (2 + nr_subdirs s p < 4294967296 → i.i_nlink = 2 + nr_subdirs s p)) ∧
      (S_ISREG i.i_mode = true → i.i_nlink = 1) := by
  intro p i hi
  have hl := (reachable_inv s h).1 p i hi
  refine ⟨fun hd => ⟨hl.1 hd, fun hlt => ?_⟩, hl.2⟩
  rw [hl.1 hd]
  exact Nat.mod_eq_of_lt hlt

theorem link_count_convention_witness :
    Reachable fs_written ∧
    ∀ (p : Nat) (i : inode), fs_written.inodes[p]? = some i →
      (S_ISDIR i.i_mode = true →
        i.i_nlink = (2 + nr_subdirs fs_written p) % 4294967296 ∧
        (2 + nr_subdirs fs_written p < 4294967296 → i.i_nlink = 2 + nr_subdirs fs_written p)) ∧
      (S_ISREG i.i_mode = true → i.i_nlink = 1) :=
  ⟨reachable_fs_written, link_count_convention fs_written reachable_fs_written⟩

end Bhfs
